import Mathlib

/-!
Verification of the incache library: a manual store (mcache.go), an LRU
store (lru_cache.go) and an LFU store (lfu_cache.go) over a common
capability contract (cache.go).

Embedding conventions. A Go map is an association list with unique keys
(iteration order of a Go map is unspecified; the list order is one
deterministic refinement of it). A container/list doubly-linked list is a
Lean list whose head is the front node. The wall clock is an explicit
integer parameter `now` (Unix nanoseconds), so `time.Now().UnixNano()`
reads `now`; int64 timestamps and durations are Lean integers (realistic
clock values are far from the 64-bit boundary, so wraparound is immaterial
to every property below). Mutation becomes explicit state passing;
functions that also return a value return a pair; Go panics become
`Except.error`.
-/

set_option linter.unusedVariables false
set_option linter.unusedSectionVars false

/-- The liveness test used by NotFoundSet, GetAll, Keys, Count and the
transfer and copy snapshots: `expireAt == 0 || expireAt >= now`. -/
def isLiveAt (now expireAt : Int) : Bool :=
  decide (expireAt = 0 ∨ now ≤ expireAt)

/-- The staleness test used by Get, evict and the background sweep:
`expireAt > 0 && expireAt < now`. -/
def isExpiredAt (now expireAt : Int) : Bool :=
  decide (0 < expireAt ∧ expireAt < now)

/-- Go map read `m[k]`, on a map modelled as an association list. -/
def assocGet {K A : Type} [DecidableEq K] (k : K) : List (K × A) → Option A
  | [] => none
  | (a, v) :: rest => if a = k then some v else assocGet k rest

/-- Go map write `m[k] = v`: replace the binding in place when the key is
present, append a new binding otherwise. -/
def assocPut {K A : Type} [DecidableEq K] (k : K) (v : A) : List (K × A) → List (K × A)
  | [] => [(k, v)]
  | (a, w) :: rest => if a = k then (k, v) :: rest else (a, w) :: assocPut k v rest

/-- Go map `delete(m, k)`. -/
def assocErase {K A : Type} [DecidableEq K] (k : K) : List (K × A) → List (K × A)
  | [] => []
  | (a, w) :: rest => if a = k then assocErase k rest else (a, w) :: assocErase k rest

/-- mcache.go valueWithTimeout: stored value plus Unix-nano expiry stamp,
0 meaning no expiration. -/
structure ValueWithTimeout (V : Type) where
  value : V
  expireAt : Int
  deriving DecidableEq

/-- mcache.go MCache: capacity, the key-value map, the sweep interval and
the state of the stop channel. The mutex and the goroutine handle carry no
functional content. -/
structure MCache (K V : Type) where
  size : Nat
  m : List (K × ValueWithTimeout V)
  timeInterval : Int
  stopClosed : Bool
  deriving DecidableEq

/-- mcache.go NewManual. -/
def MCache.new (K V : Type) (size : Nat) (timeInterval : Int) : MCache K V :=
  { size := size, m := [], timeInterval := timeInterval, stopClosed := false }

variable {K V : Type} [DecidableEq K]

/-- First pass of mcache.go evict: scan the map, deleting expired entries
and counting them; as soon as the counter reaches `i` the whole eviction
returns, leaving the rest of the map untouched. Returns the surviving
entries and the final counter. -/
def mcacheEvictPass (now : Int) (i : Nat) :
    List (K × ValueWithTimeout V) → Nat → List (K × ValueWithTimeout V) × Nat
  | [], counter => ([], counter)
  | (a, w) :: rest, counter =>
    if i ≤ counter then ((a, w) :: rest, counter)
    else if isExpiredAt now w.expireAt then mcacheEvictPass now i rest (counter + 1)
    else
      let r := mcacheEvictPass now i rest counter
      ((a, w) :: r.1, r.2)

/-- mcache.go evict: the expired-first pass, then, if fewer than `i`
entries were removed, arbitrary entries (map iteration order; here list
order) until `i` removals in total, capped by the map size. -/
def mcacheEvict (now : Int) (i : Nat) (m : List (K × ValueWithTimeout V)) :
    List (K × ValueWithTimeout V) :=
  let p := mcacheEvictPass now i m 0
  if p.2 < i then p.1.drop (min (i - p.2) p.1.length) else p.1

/-- mcache.go Set. -/
def MCache.Set (now : Int) (k : K) (v : V) (c : MCache K V) : MCache K V :=
  if c.size = 0 then c
  else if (assocGet k c.m).isSome then { c with m := assocPut k ⟨v, 0⟩ c.m }
  else
    let c1 := if c.size ≤ c.m.length then { c with m := mcacheEvict now 1 c.m } else c
    { c1 with m := assocPut k ⟨v, 0⟩ c1.m }

/-- mcache.go SetWithTimeout: non-positive timeout stores expireAt 0. -/
def MCache.SetWithTimeout (now : Int) (k : K) (v : V) (timeout : Int) (c : MCache K V) :
    MCache K V :=
  if c.size = 0 then c
  else
    let expireAt : Int := if 0 < timeout then now + timeout else 0
    if (assocGet k c.m).isSome then { c with m := assocPut k ⟨v, expireAt⟩ c.m }
    else
      let c1 := if c.size ≤ c.m.length then { c with m := mcacheEvict now 1 c.m } else c
      { c1 with m := assocPut k ⟨v, expireAt⟩ c1.m }

/-- mcache.go NotFoundSet. -/
def MCache.NotFoundSet (now : Int) (k : K) (v : V) (c : MCache K V) : Bool × MCache K V :=
  if c.size = 0 then (false, c)
  else
    let insert := fun (c0 : MCache K V) =>
      let c1 := if c0.size ≤ c0.m.length then { c0 with m := mcacheEvict now 1 c0.m } else c0
      { c1 with m := assocPut k ⟨v, 0⟩ c1.m }
    match assocGet k c.m with
    | some val =>
      if isLiveAt now val.expireAt then (false, c)
      else (true, insert { c with m := assocErase k c.m })
    | none => (true, insert c)

/-- mcache.go NotFoundSetWithTimeout. -/
def MCache.NotFoundSetWithTimeout (now : Int) (k : K) (v : V) (timeout : Int)
    (c : MCache K V) : Bool × MCache K V :=
  if c.size = 0 then (false, c)
  else
    let expireAt : Int := if 0 < timeout then now + timeout else 0
    let insert := fun (c0 : MCache K V) =>
      let c1 := if c0.size ≤ c0.m.length then { c0 with m := mcacheEvict now 1 c0.m } else c0
      { c1 with m := assocPut k ⟨v, expireAt⟩ c1.m }
    match assocGet k c.m with
    | some val =>
      if isLiveAt now val.expireAt then (false, c)
      else (true, insert { c with m := assocErase k c.m })
    | none => (true, insert c)

/-- mcache.go Get: lazily deletes an expired entry it touches. -/
def MCache.Get (now : Int) (k : K) (c : MCache K V) : Option V × MCache K V :=
  match assocGet k c.m with
  | none => (none, c)
  | some val =>
    if isExpiredAt now val.expireAt then (none, { c with m := assocErase k c.m })
    else (some val.value, c)

/-- mcache.go GetAll: the live bindings, as a map (here: association list). -/
def MCache.GetAll (now : Int) (c : MCache K V) : List (K × V) :=
  (c.m.filter (fun p => isLiveAt now p.2.expireAt)).map (fun p => (p.1, p.2.value))

/-- mcache.go Keys: the live keys. -/
def MCache.Keys (now : Int) (c : MCache K V) : List K :=
  (c.m.filter (fun p => isLiveAt now p.2.expireAt)).map (fun p => p.1)

/-- mcache.go Count: the number of live entries. -/
def MCache.Count (now : Int) (c : MCache K V) : Nat :=
  (c.m.filter (fun p => isLiveAt now p.2.expireAt)).length

/-- mcache.go Len: every stored entry, expired ones included. -/
def MCache.Len (c : MCache K V) : Nat :=
  c.m.length

/-- mcache.go Delete. -/
def MCache.Delete (k : K) (c : MCache K V) : MCache K V :=
  { c with m := assocErase k c.m }

/-- mcache.go Purge. -/
def MCache.Purge (c : MCache K V) : MCache K V :=
  { c with m := [] }

/-- One tick of the mcache.go expireKeys background sweep. -/
def MCache.sweep (now : Int) (c : MCache K V) : MCache K V :=
  { c with m := c.m.filter (fun p => !(isExpiredAt now p.2.expireAt)) }

/-- mcache.go Close. With a positive interval the code sends on stopCh and
then closes it; the first call finds the background goroutine waiting on
stopCh, so both succeed and the channel ends up closed. A later call sends
on a closed channel, which panics in Go, modelled as Except.error. -/
def MCache.Close (c : MCache K V) : Except String (MCache K V) :=
  if 0 < c.timeInterval then
    if c.stopClosed then Except.error "send on closed channel"
    else Except.ok { c with stopClosed := true, m := [] }
  else Except.ok { c with m := [] }

/-- mcache.go TransferTo: snapshot the live pairs under the source lock,
delete exactly those keys from the source, then feed each pair to the
destination Set. Returns (source, destination) afterwards. -/
def MCache.TransferTo (now : Int) (src dst : MCache K V) : MCache K V × MCache K V :=
  let toTransfer := (src.m.filter (fun p => isLiveAt now p.2.expireAt)).map
    (fun p => (p.1, p.2.value))
  let src1 := { src with m := src.m.filter (fun p => !(isLiveAt now p.2.expireAt)) }
  (src1, toTransfer.foldl (fun d p => MCache.Set now p.1 p.2 d) dst)

/-- mcache.go CopyTo: like TransferTo but the source keeps its entries. -/
def MCache.CopyTo (now : Int) (src dst : MCache K V) : MCache K V :=
  let toCopy := (src.m.filter (fun p => isLiveAt now p.2.expireAt)).map
    (fun p => (p.1, p.2.value))
  toCopy.foldl (fun d p => MCache.Set now p.1 p.2 d) dst

/-- lru_cache.go lruItem: key, value and expiry stamp of one node of the
recency list. -/
structure LruItem (K V : Type) where
  key : K
  value : V
  expireAt : Int
  deriving DecidableEq

/-- lru_cache.go LRUCache: capacity plus the recency list (head = front =
most recently touched, last = back = least recently touched). The map
`m : key → node` aliases the list nodes one-to-one, so it is represented
by the list itself and key lookups search the list. -/
structure LRUCache (K V : Type) where
  size : Nat
  evictionList : List (LruItem K V)
  deriving DecidableEq

/-- lru_cache.go NewLRU. -/
def LRUCache.new (K V : Type) (size : Nat) : LRUCache K V :=
  { size := size, evictionList := [] }

/-- The map read `c.m[k]`: the unique list node holding key `k`. -/
def lruFind (k : K) : List (LruItem K V) → Option (LruItem K V)
  | [] => none
  | it :: rest => if it.key = k then some it else lruFind k rest

/-- `delete(c.m, k)` paired with `c.evictionList.Remove(item)`: drop the
node holding key `k`. -/
def lruRemoveKey (k : K) : List (LruItem K V) → List (LruItem K V)
  | [] => []
  | it :: rest => if it.key = k then lruRemoveKey k rest else it :: lruRemoveKey k rest

/-- lru_cache.go evict: remove the back of the recency list `i` times
(no expiry inspection at all). -/
def lruEvict (i : Nat) (l : List (LruItem K V)) : List (LruItem K V) :=
  match i with
  | 0 => l
  | j + 1 => if l.isEmpty then l else lruEvict j l.dropLast

/-- lru_cache.go set (the private body shared by Set, SetWithTimeout and
the NotFoundSet variants): update in place and move to front, or evict
from the back when a new key arrives at capacity and push the new node to
the front. -/
def LRUCache.set (now : Int) (k : K) (v : V) (exp : Int) (c : LRUCache K V) : LRUCache K V :=
  if c.size = 0 then c
  else
    let expireAt : Int := if 0 < exp then now + exp else 0
    if (lruFind k c.evictionList).isSome then
      { c with evictionList := ⟨k, v, expireAt⟩ :: lruRemoveKey k c.evictionList }
    else
      let l1 := if c.size ≤ c.evictionList.length then lruEvict 1 c.evictionList
        else c.evictionList
      { c with evictionList := ⟨k, v, expireAt⟩ :: l1 }

/-- lru_cache.go Set. -/
def LRUCache.Set (now : Int) (k : K) (v : V) (c : LRUCache K V) : LRUCache K V :=
  LRUCache.set now k v 0 c

/-- lru_cache.go SetWithTimeout. -/
def LRUCache.SetWithTimeout (now : Int) (k : K) (v : V) (t : Int) (c : LRUCache K V) :
    LRUCache K V :=
  LRUCache.set now k v t c

/-- lru_cache.go Get: a hit moves the node to the front; an expired entry
is deleted and reported missing. -/
def LRUCache.Get (now : Int) (k : K) (c : LRUCache K V) : Option V × LRUCache K V :=
  match lruFind k c.evictionList with
  | none => (none, c)
  | some it =>
    if isExpiredAt now it.expireAt then
      (none, { c with evictionList := lruRemoveKey k c.evictionList })
    else (some it.value, { c with evictionList := it :: lruRemoveKey k c.evictionList })

/-- lru_cache.go NotFoundSet. -/
def LRUCache.NotFoundSet (now : Int) (k : K) (v : V) (c : LRUCache K V) :
    Bool × LRUCache K V :=
  match lruFind k c.evictionList with
  | some it =>
    if isLiveAt now it.expireAt then (false, c)
    else (true, LRUCache.set now k v 0 { c with evictionList := lruRemoveKey k c.evictionList })
  | none => (true, LRUCache.set now k v 0 c)

/-- lru_cache.go NotFoundSetWithTimeout. -/
def LRUCache.NotFoundSetWithTimeout (now : Int) (k : K) (v : V) (t : Int) (c : LRUCache K V) :
    Bool × LRUCache K V :=
  match lruFind k c.evictionList with
  | some it =>
    if isLiveAt now it.expireAt then (false, c)
    else (true, LRUCache.set now k v t { c with evictionList := lruRemoveKey k c.evictionList })
  | none => (true, LRUCache.set now k v t c)

/-- lru_cache.go GetAll: live bindings, without recency bumping. -/
def LRUCache.GetAll (now : Int) (c : LRUCache K V) : List (K × V) :=
  (c.evictionList.filter (fun it => isLiveAt now it.expireAt)).map (fun it => (it.key, it.value))

/-- lru_cache.go Keys. -/
def LRUCache.Keys (now : Int) (c : LRUCache K V) : List K :=
  (c.evictionList.filter (fun it => isLiveAt now it.expireAt)).map (fun it => it.key)

/-- lru_cache.go Count. -/
def LRUCache.Count (now : Int) (c : LRUCache K V) : Nat :=
  (c.evictionList.filter (fun it => isLiveAt now it.expireAt)).length

/-- lru_cache.go Len. -/
def LRUCache.Len (c : LRUCache K V) : Nat :=
  c.evictionList.length

/-- lru_cache.go Delete. -/
def LRUCache.Delete (k : K) (c : LRUCache K V) : LRUCache K V :=
  { c with evictionList := lruRemoveKey k c.evictionList }

/-- lru_cache.go Purge. -/
def LRUCache.Purge (c : LRUCache K V) : LRUCache K V :=
  { c with evictionList := [] }

/-- lru_cache.go TransferTo: snapshot the live pairs, delete exactly those
keys from the source, then run the destination set on each pair. -/
def LRUCache.TransferTo (now : Int) (src dst : LRUCache K V) : LRUCache K V × LRUCache K V :=
  let toTransfer := (src.evictionList.filter (fun it => isLiveAt now it.expireAt)).map
    (fun it => (it.key, it.value))
  let src1 := { src with
    evictionList := src.evictionList.filter (fun it => !(isLiveAt now it.expireAt)) }
  (src1, toTransfer.foldl (fun d p => LRUCache.set now p.1 p.2 0 d) dst)

/-- lru_cache.go CopyTo. -/
def LRUCache.CopyTo (now : Int) (src dst : LRUCache K V) : LRUCache K V :=
  let toCopy := (src.evictionList.filter (fun it => isLiveAt now it.expireAt)).map
    (fun it => (it.key, it.value))
  toCopy.foldl (fun d p => LRUCache.set now p.1 p.2 0 d) dst

/-- lfu_cache.go lfuItem: key, value, current access count and expiry
stamp of one node of a frequency bucket. -/
structure LfuItem (K V : Type) where
  key : K
  value : V
  freq : Nat
  expireAt : Int
  deriving DecidableEq

/-- lfu_cache.go LFUCache: capacity, the cached minimum frequency and the
frequency buckets (`freqLists : frequency → list`, an association list;
each bucket list has its front at the head). The map `items : key → node`
aliases the bucket nodes one-to-one, so it is represented by the buckets
themselves and key lookups search them. An absent association entry is
Go's nil list; a present empty bucket is a non-nil empty list — the code
distinguishes the two only in `updateMinFreq`, which ranges over the map
keys, empty buckets included. -/
structure LFUCache (K V : Type) where
  size : Nat
  minFreq : Nat
  freqLists : List (Nat × List (LfuItem K V))
  deriving DecidableEq

/-- lfu_cache.go NewLFU. -/
def LFUCache.new (K V : Type) (size : Nat) : LFUCache K V :=
  { size := size, minFreq := 0, freqLists := [] }

/-- Search one bucket for the node holding key `k`. -/
def lfuBucketFind (k : K) : List (LfuItem K V) → Option (LfuItem K V)
  | [] => none
  | it :: rest => if it.key = k then some it else lfuBucketFind k rest

/-- `list.Remove` of the node holding key `k` from one bucket. -/
def lfuBucketRemove (k : K) : List (LfuItem K V) → List (LfuItem K V)
  | [] => []
  | it :: rest => if it.key = k then lfuBucketRemove k rest else it :: lfuBucketRemove k rest

/-- The map read `l.items[k]`: the unique bucket node holding key `k`. -/
def lfuFindItem (k : K) : List (Nat × List (LfuItem K V)) → Option (LfuItem K V)
  | [] => none
  | (_, b) :: rest =>
    match lfuBucketFind k b with
    | some it => some it
    | none => lfuFindItem k rest

/-- Every stored node, bucket by bucket (the range of `l.items`). -/
def lfuItems (fl : List (Nat × List (LfuItem K V))) : List (LfuItem K V) :=
  (fl.map Prod.snd).flatten

/-- `len(l.items)`. -/
def lfuLen (fl : List (Nat × List (LfuItem K V))) : Nat :=
  (lfuItems fl).length

/-- lfu_cache.go updateMinFreq: 0, then the least bucket frequency in map
iteration order — empty buckets included. -/
def lfuUpdateMinFreq (fl : List (Nat × List (LfuItem K V))) : Nat :=
  fl.foldl (fun mf p => if mf = 0 ∨ p.1 < mf then p.1 else mf) 0

/-- In-place update of a stored node's value and expiry (the existing-key
half of lfu_cache.go set, before the frequency bump). -/
def lfuUpdateItem (k : K) (v : V) (expireAt : Int)
    (fl : List (Nat × List (LfuItem K V))) : List (Nat × List (LfuItem K V)) :=
  fl.map (fun p => (p.1, p.2.map (fun it =>
    if it.key = k then { it with value := v, expireAt := expireAt } else it)))

/-- lfu_cache.go incrementFreq: remove the node from its bucket, advance
minFreq and drop the bucket only when the bucket was the minimum and is
now empty (an emptied non-minimum bucket stays behind, empty), then push
the node to the front of the next bucket. The caller always passes a key
present in the map, so the missing-key branch is unreachable. -/
def LFUCache.incrementFreq (k : K) (s : LFUCache K V) : LFUCache K V :=
  match lfuFindItem k s.freqLists with
  | none => s
  | some item =>
    let oldFreq := item.freq
    let newFreq := oldFreq + 1
    let oldList1 := lfuBucketRemove k ((assocGet oldFreq s.freqLists).getD [])
    let fl1 := assocPut oldFreq oldList1 s.freqLists
    let mffl :=
      if oldFreq = s.minFreq ∧ oldList1.isEmpty then (newFreq, assocErase oldFreq fl1)
      else (s.minFreq, fl1)
    let newList := (assocGet newFreq mffl.2).getD []
    { s with
      minFreq := mffl.1,
      freqLists := assocPut newFreq ({ item with freq := newFreq } :: newList) mffl.2 }

/-- lfu_cache.go delete: remove the node from the bucket named by its
frequency, dropping the bucket when emptied and recomputing minFreq when
that bucket was the minimum. A node just found in the map lives in its
bucket, so the nil-bucket guard branch is unreachable. -/
def LFUCache.deleteKey (k : K) (s : LFUCache K V) : LFUCache K V :=
  match lfuFindItem k s.freqLists with
  | none => s
  | some item =>
    match assocGet item.freq s.freqLists with
    | none => s
    | some freqList =>
      let freqList1 := lfuBucketRemove k freqList
      if freqList1.isEmpty then
        let fl2 := assocErase item.freq (assocPut item.freq freqList1 s.freqLists)
        if item.freq = s.minFreq then
          { s with freqLists := fl2, minFreq := lfuUpdateMinFreq fl2 }
        else { s with freqLists := fl2 }
      else { s with freqLists := assocPut item.freq freqList1 s.freqLists }

/-- One iteration of the lfu_cache.go evict loop body: take the minFreq
bucket, recomputing minFreq once if that bucket is nil or empty; if it is
still nil or empty, abort the whole eviction (second component false);
otherwise remove the bucket's back node. -/
def LFUCache.evictStep (s : LFUCache K V) : LFUCache K V × Bool :=
  let minList := (assocGet s.minFreq s.freqLists).getD []
  if minList.isEmpty then
    let s1 := { s with minFreq := lfuUpdateMinFreq s.freqLists }
    let minList1 := (assocGet s1.minFreq s1.freqLists).getD []
    match minList1.getLast? with
    | none => (s1, false)
    | some item => (LFUCache.deleteKey item.key s1, true)
  else
    match minList.getLast? with
    | none => (s, false)
    | some item => (LFUCache.deleteKey item.key s, true)

/-- lfu_cache.go evict: up to `n` victim removals, stopping early on an
empty store or an aborted step. -/
def LFUCache.evict : Nat → LFUCache K V → LFUCache K V
  | 0, s => s
  | n + 1, s =>
    if lfuLen s.freqLists = 0 then s
    else
      let r := LFUCache.evictStep s
      if r.2 then LFUCache.evict n r.1 else r.1

/-- lfu_cache.go set (the private body shared by Set, SetWithTimeout and
the NotFoundSet variants): update in place plus frequency bump for an
existing key; for a new key, evict once when at capacity, then push the
new node at frequency 1 to the front of bucket 1 and set minFreq to 1. -/
def LFUCache.set (now : Int) (k : K) (v : V) (exp : Int) (s : LFUCache K V) : LFUCache K V :=
  if s.size = 0 then s
  else
    let expireAt : Int := if 0 < exp then now + exp else 0
    if (lfuFindItem k s.freqLists).isSome then
      LFUCache.incrementFreq k { s with freqLists := lfuUpdateItem k v expireAt s.freqLists }
    else
      let s1 := if s.size ≤ lfuLen s.freqLists then LFUCache.evict 1 s else s
      let bucket1 := (assocGet 1 s1.freqLists).getD []
      { s1 with
        minFreq := 1,
        freqLists := assocPut 1 (⟨k, v, 1, expireAt⟩ :: bucket1) s1.freqLists }

/-- lfu_cache.go Set. -/
def LFUCache.Set (now : Int) (k : K) (v : V) (s : LFUCache K V) : LFUCache K V :=
  LFUCache.set now k v 0 s

/-- lfu_cache.go SetWithTimeout. -/
def LFUCache.SetWithTimeout (now : Int) (k : K) (v : V) (exp : Int) (s : LFUCache K V) :
    LFUCache K V :=
  LFUCache.set now k v exp s

/-- lfu_cache.go Get: a hit bumps the node's frequency; an expired entry
is deleted and reported missing. -/
def LFUCache.Get (now : Int) (k : K) (s : LFUCache K V) : Option V × LFUCache K V :=
  match lfuFindItem k s.freqLists with
  | none => (none, s)
  | some item =>
    if isExpiredAt now item.expireAt then (none, LFUCache.deleteKey k s)
    else (some item.value, LFUCache.incrementFreq k s)

/-- lfu_cache.go NotFoundSet. -/
def LFUCache.NotFoundSet (now : Int) (k : K) (v : V) (s : LFUCache K V) :
    Bool × LFUCache K V :=
  match lfuFindItem k s.freqLists with
  | some item =>
    if isLiveAt now item.expireAt then (false, s)
    else (true, LFUCache.set now k v 0 (LFUCache.deleteKey k s))
  | none => (true, LFUCache.set now k v 0 s)

/-- lfu_cache.go NotFoundSetWithTimeout. -/
def LFUCache.NotFoundSetWithTimeout (now : Int) (k : K) (v : V) (t : Int) (s : LFUCache K V) :
    Bool × LFUCache K V :=
  match lfuFindItem k s.freqLists with
  | some item =>
    if isLiveAt now item.expireAt then (false, s)
    else (true, LFUCache.set now k v t (LFUCache.deleteKey k s))
  | none => (true, LFUCache.set now k v t s)

/-- lfu_cache.go GetAll. -/
def LFUCache.GetAll (now : Int) (s : LFUCache K V) : List (K × V) :=
  ((lfuItems s.freqLists).filter (fun it => isLiveAt now it.expireAt)).map
    (fun it => (it.key, it.value))

/-- lfu_cache.go Keys. -/
def LFUCache.Keys (now : Int) (s : LFUCache K V) : List K :=
  ((lfuItems s.freqLists).filter (fun it => isLiveAt now it.expireAt)).map (fun it => it.key)

/-- lfu_cache.go Count. -/
def LFUCache.Count (now : Int) (s : LFUCache K V) : Nat :=
  ((lfuItems s.freqLists).filter (fun it => isLiveAt now it.expireAt)).length

/-- lfu_cache.go Len. -/
def LFUCache.Len (s : LFUCache K V) : Nat :=
  lfuLen s.freqLists

/-- lfu_cache.go Delete (the `ok` guard folds into the missing-key branch
of delete). -/
def LFUCache.Delete (k : K) (s : LFUCache K V) : LFUCache K V :=
  LFUCache.deleteKey k s

/-- lfu_cache.go Purge. -/
def LFUCache.Purge (s : LFUCache K V) : LFUCache K V :=
  { s with freqLists := [], minFreq := 0 }

/-- lfu_cache.go TransferTo: snapshot the live pairs, run delete on each
snapshotted key in the source, then run the destination set on each pair. -/
def LFUCache.TransferTo (now : Int) (src dst : LFUCache K V) : LFUCache K V × LFUCache K V :=
  let toTransfer := ((lfuItems src.freqLists).filter (fun it => isLiveAt now it.expireAt)).map
    (fun it => (it.key, it.value))
  let src1 := (toTransfer.map Prod.fst).foldl (fun s k => LFUCache.deleteKey k s) src
  (src1, toTransfer.foldl (fun d p => LFUCache.set now p.1 p.2 0 d) dst)

/-- lfu_cache.go CopyTo. -/
def LFUCache.CopyTo (now : Int) (src dst : LFUCache K V) : LFUCache K V :=
  let toCopy := ((lfuItems src.freqLists).filter (fun it => isLiveAt now it.expireAt)).map
    (fun it => (it.key, it.value))
  toCopy.foldl (fun d p => LFUCache.set now p.1 p.2 0 d) dst

/-- The structural facts lfu_cache.go maintains through the aliasing of
`items` and `freqLists`, plus the capacity and minFreq bookkeeping: every
node sits in the bucket named by its freq field; keys are unique; bucket
frequencies are unique; the store never exceeds its capacity; and the
minFreq bucket can only be empty (or missing) when the store is below
capacity or empty — so it is never empty when an insertion at capacity
reaches evict. -/
abbrev LFUInv (s : LFUCache K V) : Prop :=
  (∀ p ∈ s.freqLists, ∀ it ∈ p.2, it.freq = p.1) ∧
  ((lfuItems s.freqLists).map LfuItem.key).Nodup ∧
  (s.freqLists.map Prod.fst).Nodup ∧
  lfuLen s.freqLists ≤ s.size ∧
  (lfuLen s.freqLists = 0 ∨ lfuLen s.freqLists < s.size ∨
    ((assocGet s.minFreq s.freqLists).getD []).isEmpty = false)

/-- One public operation of the LFU store (the eviction of lfu_cache.go is
internal to set). -/
inductive LFUOp (K V : Type) where
  | opSet (now : Int) (k : K) (v : V)
  | opSetWithTimeout (now : Int) (k : K) (v : V) (exp : Int)
  | opGet (now : Int) (k : K)
  | opNotFoundSet (now : Int) (k : K) (v : V)
  | opNotFoundSetWithTimeout (now : Int) (k : K) (v : V) (exp : Int)
  | opDelete (k : K)
  | opPurge

/-- Run one public LFU operation, discarding any returned value. -/
def LFUCache.apply (op : LFUOp K V) (s : LFUCache K V) : LFUCache K V :=
  match op with
  | LFUOp.opSet now k v => LFUCache.Set now k v s
  | LFUOp.opSetWithTimeout now k v e => LFUCache.SetWithTimeout now k v e s
  | LFUOp.opGet now k => (LFUCache.Get now k s).2
  | LFUOp.opNotFoundSet now k v => (LFUCache.NotFoundSet now k v s).2
  | LFUOp.opNotFoundSetWithTimeout now k v e => (LFUCache.NotFoundSetWithTimeout now k v e s).2
  | LFUOp.opDelete k => LFUCache.Delete k s
  | LFUOp.opPurge => LFUCache.Purge s

/-- The Go type a TransferTo or CopyTo destination parameter is declared
with, read off the method signatures and the capability contract. -/
inductive GoDestType where
  | mcachePtr
  | lruCachePtr
  | lfuCachePtr
  | cacheContract
  deriving DecidableEq

/-- cache.go line 20: the Cache interface declares
TransferTo(dst Cache[K, V]). -/
def cacheContractTransferToDest : GoDestType := GoDestType.cacheContract

/-- cache.go line 22: the Cache interface declares CopyTo(dst Cache[K, V]). -/
def cacheContractCopyToDest : GoDestType := GoDestType.cacheContract

/-- mcache.go line 214: func (src *MCache[K, V]) TransferTo(dst *MCache[K, V]). -/
def mcacheTransferToDest : GoDestType := GoDestType.mcachePtr

/-- mcache.go line 242: func (src *MCache[K, V]) CopyTo(dst *MCache[K, V]). -/
def mcacheCopyToDest : GoDestType := GoDestType.mcachePtr

/-- lru_cache.go line 154: func (src *LRUCache[K, V]) TransferTo(dst *LRUCache[K, V]). -/
def lruTransferToDest : GoDestType := GoDestType.lruCachePtr

/-- lru_cache.go line 185: func (src *LRUCache[K, V]) CopyTo(dst *LRUCache[K, V]). -/
def lruCopyToDest : GoDestType := GoDestType.lruCachePtr

/-- lfu_cache.go line 203: func (src *LFUCache[K, V]) TransferTo(dst *LFUCache[K, V]). -/
def lfuTransferToDest : GoDestType := GoDestType.lfuCachePtr

/-- lfu_cache.go line 235: func (src *LFUCache[K, V]) CopyTo(dst *LFUCache[K, V]). -/
def lfuCopyToDest : GoDestType := GoDestType.lfuCachePtr

/-! ### Association list lemmas -/

theorem assocGet_eq_none_iff {A : Type} (k : K) (m : List (K × A)) :
    assocGet k m = none ↔ ∀ p ∈ m, p.1 ≠ k := by
  induction m with
  | nil => simp [assocGet]
  | cons hd tl ih =>
    obtain ⟨a, v⟩ := hd
    by_cases h : a = k
    · subst h
      simp [assocGet]
    · simp [assocGet, h, ih]

theorem assocGet_none_of_sublist {A : Type} {k : K} {m1 m2 : List (K × A)}
    (hsub : List.Sublist m1 m2) (h : assocGet k m2 = none) : assocGet k m1 = none := by
  rw [assocGet_eq_none_iff] at h ⊢
  exact fun p hp => h p (hsub.subset hp)

theorem assocPut_length_of_none {A : Type} {k : K} {v : A} {m : List (K × A)}
    (h : assocGet k m = none) : (assocPut k v m).length = m.length + 1 := by
  induction m with
  | nil => simp [assocPut]
  | cons hd tl ih =>
    obtain ⟨a, w⟩ := hd
    by_cases hak : a = k
    · subst hak
      simp [assocGet] at h
    · simp only [assocGet, if_neg hak] at h
      simp [assocPut, hak, ih h]

theorem assocPut_length_of_some {A : Type} {k : K} {v : A} {m : List (K × A)}
    (h : (assocGet k m).isSome) : (assocPut k v m).length = m.length := by
  induction m with
  | nil => simp [assocGet] at h
  | cons hd tl ih =>
    obtain ⟨a, w⟩ := hd
    by_cases hak : a = k
    · subst hak
      simp [assocPut]
    · simp only [assocGet, if_neg hak] at h
      simp [assocPut, hak, ih h]

theorem assocGet_put_self {A : Type} (k : K) (v : A) (m : List (K × A)) :
    assocGet k (assocPut k v m) = some v := by
  induction m with
  | nil => simp [assocPut, assocGet]
  | cons hd tl ih =>
    obtain ⟨a, w⟩ := hd
    by_cases hak : a = k
    · subst hak
      simp [assocPut, assocGet]
    · simp [assocPut, assocGet, hak, ih]

theorem assocGet_put_other {A : Type} {k j : K} (hkj : k ≠ j) (v : A) (m : List (K × A)) :
    assocGet j (assocPut k v m) = assocGet j m := by
  induction m with
  | nil => simp [assocPut, assocGet, hkj]
  | cons hd tl ih =>
    obtain ⟨a, w⟩ := hd
    by_cases hak : a = k
    · subst hak
      simp [assocPut, assocGet, hkj]
    · simp [assocPut, assocGet, hak, ih]

/-! ### mcache evict lemmas -/

theorem mcacheEvictPass_at_limit {now : Int} (m : List (K × ValueWithTimeout V)) :
    mcacheEvictPass now 1 m 1 = (m, 1) := by
  cases m with
  | nil => rfl
  | cons hd tl =>
    obtain ⟨a, w⟩ := hd
    simp [mcacheEvictPass]

theorem mcacheEvictPass_spec (now : Int) (m : List (K × ValueWithTimeout V)) :
    (mcacheEvictPass now 1 m 0 = (m, 0)) ∨
      ((mcacheEvictPass now 1 m 0).2 = 1 ∧
        (mcacheEvictPass now 1 m 0).1.length + 1 = m.length) := by
  induction m with
  | nil => left; rfl
  | cons hd tl ih =>
    obtain ⟨a, w⟩ := hd
    by_cases hexp : isExpiredAt now w.expireAt
    · right
      simp [mcacheEvictPass, hexp, mcacheEvictPass_at_limit]
    · rcases ih with h0 | ⟨h1, h2⟩
      · left
        simp [mcacheEvictPass, hexp, h0]
      · right
        constructor
        · simp [mcacheEvictPass, hexp, h1]
        · simp [mcacheEvictPass, hexp]
          omega

theorem mcacheEvictPass_sublist {now : Int} (i : Nat) (m : List (K × ValueWithTimeout V))
    (c : Nat) : List.Sublist (mcacheEvictPass now i m c).1 m := by
  induction m generalizing c with
  | nil => simp [mcacheEvictPass]
  | cons hd tl ih =>
    obtain ⟨a, w⟩ := hd
    by_cases hic : i ≤ c
    · simp [mcacheEvictPass, hic]
    · by_cases hexp : isExpiredAt now w.expireAt
      · simp only [mcacheEvictPass, if_neg hic, if_pos hexp]
        exact (ih _).cons _
      · simp only [mcacheEvictPass, if_neg hic, if_neg hexp]
        exact (ih _).cons₂ _

/-- The overflow eviction removes exactly one entry from a non-empty map:
its first pass stops after one expired removal, and its second pass then
removes at most one more. -/
theorem mcacheEvict_length (now : Int) {m : List (K × ValueWithTimeout V)} (h : m ≠ []) :
    (mcacheEvict now 1 m).length + 1 = m.length := by
  unfold mcacheEvict
  rcases mcacheEvictPass_spec now m with h0 | ⟨h1, h2⟩
  · rw [h0]
    have hlen : 1 ≤ m.length := by
      cases m with
      | nil => exact absurd rfl h
      | cons hd tl => simp
    simp only []
    rw [if_pos (by norm_num)]
    simp [Nat.min_eq_left hlen]
    omega
  · rw [if_neg (by omega)]
    exact h2

theorem mcacheEvict_sublist {now : Int} (m : List (K × ValueWithTimeout V)) :
    List.Sublist (mcacheEvict now 1 m) m := by
  unfold mcacheEvict
  by_cases hc : (mcacheEvictPass now 1 m 0).2 < 1
  · rw [if_pos hc]
    exact List.Sublist.trans (List.drop_sublist _ _) (mcacheEvictPass_sublist 1 m 0)
  · rw [if_neg hc]
    exact mcacheEvictPass_sublist 1 m 0

theorem mcache_insert_full_len {now : Int} {k : K} {x : ValueWithTimeout V} {s : MCache K V}
    (hcap : s.m.length = s.size) (hpos : 0 < s.size) (hnew : assocGet k s.m = none) :
    (assocPut k x (mcacheEvict now 1 s.m)).length = s.size := by
  have hne : s.m ≠ [] := by
    intro h
    rw [h] at hcap
    simp at hcap
    omega
  have h1 := mcacheEvict_length now hne
  have h2 : assocGet k (mcacheEvict now 1 s.m) = none :=
    assocGet_none_of_sublist (mcacheEvict_sublist s.m) hnew
  rw [assocPut_length_of_none h2]
  omega

/-- C3 (counterexample): a manual store at capacity 2 whose k = 2 stored
entries are both already expired at call time; Set with a new key leaves
Len = 2 = size, not size - k + 1 = 1, because evict(1) removes only one
expired entry. -/
theorem claim_C3_counterexample :
    (∀ p ∈ [((1 : Nat), (⟨10, 5⟩ : ValueWithTimeout Nat)), (2, ⟨20, 5⟩)],
      isExpiredAt 100 p.2.expireAt) ∧
    MCache.Len (MCache.Set 100 3 30
      { size := 2, m := [(1, ⟨10, 5⟩), (2, ⟨20, 5⟩)], timeInterval := 0,
        stopClosed := false }) = 2 ∧
    (2 : Nat) ≠ 2 - 2 + 1 := by
  refine ⟨by decide, by decide, by decide⟩

/-- C3 (amended): when the manual store is at capacity and receives
Set, SetWithTimeout or NotFoundSet with a new key, the overflow eviction
removes exactly one entry — preferring an expired one, but stopping after
a single removal regardless of how many entries are expired — so Len
after the insertion is exactly size. -/
theorem claim_C3_amended (now : Int) (k : K) (v : V) (timeout : Int) (s : MCache K V)
    (hcap : s.m.length = s.size) (hpos : 0 < s.size) (hnew : assocGet k s.m = none) :
    MCache.Len (MCache.Set now k v s) = s.size ∧
    MCache.Len (MCache.SetWithTimeout now k v timeout s) = s.size ∧
    (MCache.NotFoundSet now k v s).1 = true ∧
    MCache.Len (MCache.NotFoundSet now k v s).2 = s.size := by
  have hsz : ¬ s.size = 0 := by omega
  have hle : s.size ≤ s.m.length := le_of_eq hcap.symm
  refine ⟨?_, ?_, ?_, ?_⟩
  · simp only [MCache.Set, MCache.Len, if_neg hsz, hnew, Option.isSome_none,
      Bool.false_eq_true, if_false, if_pos hle]
    exact mcache_insert_full_len hcap hpos hnew
  · simp only [MCache.SetWithTimeout, MCache.Len, if_neg hsz, hnew, Option.isSome_none,
      Bool.false_eq_true, if_false, if_pos hle]
    exact mcache_insert_full_len hcap hpos hnew
  · simp only [MCache.NotFoundSet, if_neg hsz, hnew]
  · simp only [MCache.NotFoundSet, MCache.Len, if_neg hsz, hnew, if_pos hle]
    exact mcache_insert_full_len hcap hpos hnew

/-- C3 (witness): the amended statement applied to a concrete store at
capacity 2 with both entries expired. -/
theorem claim_C3_witness :
    ([((1 : Nat), (⟨10, 5⟩ : ValueWithTimeout Nat)), (2, ⟨20, 5⟩)].length = 2 ∧
      0 < 2 ∧ assocGet 3 [((1 : Nat), (⟨10, 5⟩ : ValueWithTimeout Nat)), (2, ⟨20, 5⟩)] = none) ∧
    MCache.Len (MCache.Set 100 3 30
      { size := 2, m := [(1, ⟨10, 5⟩), (2, ⟨20, 5⟩)], timeInterval := 0,
        stopClosed := false }) = 2 :=
  ⟨⟨by decide, by decide, by decide⟩,
    (claim_C3_amended 100 3 30 0
      { size := 2, m := [(1, ⟨10, 5⟩), (2, ⟨20, 5⟩)], timeInterval := 0, stopClosed := false }
      (by decide) (by decide) (by decide)).1⟩

/-- C4 (code_bug): at capacity 0 every store's Set and SetWithTimeout
store nothing and Get misses, and the manual store's NotFoundSet variants
return false as the claim requires — but the LRU and LFU NotFoundSet
variants, which have no capacity-0 guard, return true while still storing
nothing, contradicting the claim and their own doc comment ("returns true
if the key was added to the cache"). -/
theorem claim_C4_capacityZero (now : Int) (k : K) (v : V) (t : Int) :
    MCache.Set now k v (MCache.new K V 0 0) = MCache.new K V 0 0 ∧
    MCache.SetWithTimeout now k v t (MCache.new K V 0 0) = MCache.new K V 0 0 ∧
    MCache.Get now k (MCache.new K V 0 0) = (none, MCache.new K V 0 0) ∧
    MCache.NotFoundSet now k v (MCache.new K V 0 0) = (false, MCache.new K V 0 0) ∧
    MCache.NotFoundSetWithTimeout now k v t (MCache.new K V 0 0) =
      (false, MCache.new K V 0 0) ∧
    LRUCache.Set now k v (LRUCache.new K V 0) = LRUCache.new K V 0 ∧
    LRUCache.SetWithTimeout now k v t (LRUCache.new K V 0) = LRUCache.new K V 0 ∧
    LRUCache.Get now k (LRUCache.new K V 0) = (none, LRUCache.new K V 0) ∧
    LRUCache.NotFoundSet now k v (LRUCache.new K V 0) = (true, LRUCache.new K V 0) ∧
    LRUCache.NotFoundSetWithTimeout now k v t (LRUCache.new K V 0) =
      (true, LRUCache.new K V 0) ∧
    LFUCache.Set now k v (LFUCache.new K V 0) = LFUCache.new K V 0 ∧
    LFUCache.SetWithTimeout now k v t (LFUCache.new K V 0) = LFUCache.new K V 0 ∧
    LFUCache.Get now k (LFUCache.new K V 0) = (none, LFUCache.new K V 0) ∧
    LFUCache.NotFoundSet now k v (LFUCache.new K V 0) = (true, LFUCache.new K V 0) ∧
    LFUCache.NotFoundSetWithTimeout now k v t (LFUCache.new K V 0) =
      (true, LFUCache.new K V 0) :=
  ⟨rfl, rfl, rfl, rfl, rfl, rfl, rfl, rfl, rfl, rfl, rfl, rfl, rfl, rfl, rfl⟩

/-- C9 (code_bug): the first Close on a manual store with a positive sweep
interval succeeds and leaves the stop channel closed; a second Close sends
on the already-closed channel, which panics in Go. -/
theorem claim_C9_doubleClose :
    MCache.Close (MCache.new Nat Nat 10 5) =
      Except.ok { size := 10, m := [], timeInterval := 5, stopClosed := true } ∧
    MCache.Close ({ size := 10, m := [], timeInterval := 5, stopClosed := true } :
      MCache Nat Nat) = Except.error "send on closed channel" :=
  ⟨rfl, rfl⟩

/-- C5 (code_bug): the capability contract of cache.go declares
contract-typed TransferTo and CopyTo destinations, but every store's
implementation accepts only a pointer to its own concrete type — in
particular an LRU source cannot take an LFU destination — so no store
satisfies the declared contract for these operations. -/
theorem claim_C5_sameTypeOnly :
    cacheContractTransferToDest = GoDestType.cacheContract ∧
    cacheContractCopyToDest = GoDestType.cacheContract ∧
    mcacheTransferToDest ≠ cacheContractTransferToDest ∧
    mcacheCopyToDest ≠ cacheContractCopyToDest ∧
    lruTransferToDest ≠ cacheContractTransferToDest ∧
    lruCopyToDest ≠ cacheContractCopyToDest ∧
    lfuTransferToDest ≠ cacheContractTransferToDest ∧
    lfuCopyToDest ≠ cacheContractCopyToDest ∧
    lruTransferToDest ≠ lfuTransferToDest := by
  refine ⟨rfl, rfl, ?_, ?_, ?_, ?_, ?_, ?_, ?_⟩ <;> decide

theorem lruSet_nonpos {now : Int} {k : K} {v : V} {t : Int} (h : t ≤ 0) (c : LRUCache K V) :
    LRUCache.set now k v t c = LRUCache.set now k v 0 c := by
  have h0 : ¬ (0 : Int) < t := by omega
  simp [LRUCache.set, h0]

theorem lfuSet_nonpos {now : Int} {k : K} {v : V} {t : Int} (h : t ≤ 0) (c : LFUCache K V) :
    LFUCache.set now k v t c = LFUCache.set now k v 0 c := by
  have h0 : ¬ (0 : Int) < t := by omega
  simp [LFUCache.set, h0]

/-- C8 (confirmed): a non-positive timeout makes every timeout variant
behave exactly like its non-timeout counterpart, for all three stores:
the resulting state is identical (the entry is stored with no expiration)
and the NotFoundSet variants also return the same boolean. -/
theorem claim_C8_nonposTimeout (now : Int) (k : K) (v : V) (t : Int)
    (cm : MCache K V) (cr : LRUCache K V) (cf : LFUCache K V) (h : t ≤ 0) :
    MCache.SetWithTimeout now k v t cm = MCache.Set now k v cm ∧
    MCache.NotFoundSetWithTimeout now k v t cm = MCache.NotFoundSet now k v cm ∧
    LRUCache.SetWithTimeout now k v t cr = LRUCache.Set now k v cr ∧
    LRUCache.NotFoundSetWithTimeout now k v t cr = LRUCache.NotFoundSet now k v cr ∧
    LFUCache.SetWithTimeout now k v t cf = LFUCache.Set now k v cf ∧
    LFUCache.NotFoundSetWithTimeout now k v t cf = LFUCache.NotFoundSet now k v cf := by
  have h0 : ¬ (0 : Int) < t := by omega
  refine ⟨?_, ?_, ?_, ?_, ?_, ?_⟩
  · simp [MCache.SetWithTimeout, MCache.Set, h0]
  · simp [MCache.NotFoundSetWithTimeout, MCache.NotFoundSet, h0]
  · simp [LRUCache.SetWithTimeout, LRUCache.Set, lruSet_nonpos h]
  · simp [LRUCache.NotFoundSetWithTimeout, LRUCache.NotFoundSet, lruSet_nonpos h]
  · simp [LFUCache.SetWithTimeout, LFUCache.Set, lfuSet_nonpos h]
  · simp [LFUCache.NotFoundSetWithTimeout, LFUCache.NotFoundSet, lfuSet_nonpos h]

/-- C8 (witness): the equivalence applied at timeout -3 on small concrete
stores. -/
theorem claim_C8_witness :
    ((-3 : Int) ≤ 0) ∧
    MCache.SetWithTimeout 100 1 5 (-3) (MCache.new Nat Nat 4 0) =
      MCache.Set 100 1 5 (MCache.new Nat Nat 4 0) ∧
    LRUCache.NotFoundSetWithTimeout 100 1 5 (-3) (LRUCache.new Nat Nat 4) =
      LRUCache.NotFoundSet 100 1 5 (LRUCache.new Nat Nat 4) ∧
    LFUCache.SetWithTimeout 100 1 5 (-3) (LFUCache.new Nat Nat 4) =
      LFUCache.Set 100 1 5 (LFUCache.new Nat Nat 4) :=
  ⟨by decide,
    (claim_C8_nonposTimeout 100 1 5 (-3) (MCache.new Nat Nat 4 0) (LRUCache.new Nat Nat 4)
      (LFUCache.new Nat Nat 4) (by decide)).1,
    (claim_C8_nonposTimeout 100 1 5 (-3) (MCache.new Nat Nat 4 0) (LRUCache.new Nat Nat 4)
      (LFUCache.new Nat Nat 4) (by decide)).2.2.2.1,
    (claim_C8_nonposTimeout 100 1 5 (-3) (MCache.new Nat Nat 4 0) (LRUCache.new Nat Nat 4)
      (LFUCache.new Nat Nat 4) (by decide)).2.2.2.2.1⟩

theorem expired_not_live {now e : Int} (h : isExpiredAt now e = true) :
    isLiveAt now e = false := by
  simp [isExpiredAt] at h
  simp [isLiveAt]
  omega

theorem filter_length_lt_of_mem {α : Type} {p : α → Bool} {l : List α} {x : α}
    (hx : x ∈ l) (hpx : p x = false) : (l.filter p).length < l.length := by
  induction l with
  | nil => cases hx
  | cons a tl ih =>
    rcases List.mem_cons.mp hx with rfl | hx
    · rw [List.filter_cons]
      simp only [hpx, Bool.false_eq_true, if_false]
      exact Nat.lt_succ_of_le (List.length_filter_le p tl)
    · rw [List.filter_cons]
      cases hpa : p a
      · simp only [Bool.false_eq_true, if_false]
        exact Nat.lt_succ_of_lt (ih hx)
      · simp only [if_true, List.length_cons]
        exact Nat.succ_lt_succ (ih hx)

theorem assocGet_mem {A : Type} {k : K} {val : A} {m : List (K × A)}
    (h : assocGet k m = some val) : (k, val) ∈ m := by
  induction m with
  | nil => simp [assocGet] at h
  | cons hd tl ih =>
    obtain ⟨a, w⟩ := hd
    by_cases hak : a = k
    · subst hak
      simp [assocGet] at h
      subst h
      exact List.mem_cons_self _ _
    · simp only [assocGet, if_neg hak] at h
      exact List.mem_cons_of_mem _ (ih h)

theorem assocGet_some_unique {A : Type} {k : K} {val : A} {m : List (K × A)}
    (hnod : (m.map Prod.fst).Nodup) (hget : assocGet k m = some val) :
    ∀ p ∈ m, p.1 = k → p.2 = val := by
  induction m with
  | nil => intro p hp; cases hp
  | cons hd tl ih =>
    obtain ⟨a, w⟩ := hd
    simp only [List.map_cons, List.nodup_cons] at hnod
    intro p hp hpk
    rcases List.mem_cons.mp hp with rfl | hp
    · simp only at hpk
      rw [assocGet, if_pos hpk] at hget
      exact Option.some.inj hget
    · by_cases hak : a = k
      · subst hak
        exact absurd (hpk ▸ List.mem_map_of_mem Prod.fst hp) hnod.1
      · simp only [assocGet, if_neg hak] at hget
        exact ih hnod.2 hget p hp hpk

theorem assocErase_of_none {A : Type} {k : K} {m : List (K × A)}
    (h : assocGet k m = none) : assocErase k m = m := by
  induction m with
  | nil => rfl
  | cons hd tl ih =>
    obtain ⟨a, w⟩ := hd
    by_cases hak : a = k
    · subst hak
      simp [assocGet] at h
    · simp only [assocGet, if_neg hak] at h
      simp [assocErase, hak, ih h]

theorem assocErase_length {A : Type} {k : K} {val : A} {m : List (K × A)}
    (hnod : (m.map Prod.fst).Nodup) (hget : assocGet k m = some val) :
    (assocErase k m).length + 1 = m.length := by
  induction m with
  | nil => simp [assocGet] at hget
  | cons hd tl ih =>
    obtain ⟨a, w⟩ := hd
    simp only [List.map_cons, List.nodup_cons] at hnod
    by_cases hak : a = k
    · subst hak
      have hnone : assocGet a tl = none := by
        rw [assocGet_eq_none_iff]
        intro p hp hpa
        exact hnod.1 (hpa ▸ List.mem_map_of_mem Prod.fst hp)
      simp [assocErase, assocErase_of_none hnone]
    · simp only [assocGet, if_neg hak] at hget
      simp only [assocErase, if_neg hak, List.length_cons]
      rw [← ih hnod.2 hget]

theorem lruFind_mem {k : K} {it : LruItem K V} {l : List (LruItem K V)}
    (h : lruFind k l = some it) : it ∈ l ∧ it.key = k := by
  induction l with
  | nil => simp [lruFind] at h
  | cons x tl ih =>
    by_cases hx : x.key = k
    · rw [lruFind, if_pos hx] at h
      cases h
      exact ⟨List.mem_cons_self _ _, hx⟩
    · rw [lruFind, if_neg hx] at h
      exact ⟨List.mem_cons_of_mem _ (ih h).1, (ih h).2⟩

theorem lruFind_unique {k : K} {it : LruItem K V} {l : List (LruItem K V)}
    (hnod : (l.map LruItem.key).Nodup) (h : lruFind k l = some it) :
    ∀ x ∈ l, x.key = k → x = it := by
  induction l with
  | nil => intro x hx; cases hx
  | cons a tl ih =>
    simp only [List.map_cons, List.nodup_cons] at hnod
    intro x hx hxk
    rcases List.mem_cons.mp hx with rfl | hx
    · rw [lruFind, if_pos hxk] at h
      exact Option.some.inj h
    · by_cases hak : a.key = k
      · exact absurd ((hxk.trans hak.symm) ▸ List.mem_map_of_mem LruItem.key hx) hnod.1
      · rw [lruFind, if_neg hak] at h
        exact ih hnod.2 h x hx hxk

theorem lruRemoveKey_of_none {k : K} {l : List (LruItem K V)}
    (h : lruFind k l = none) : lruRemoveKey k l = l := by
  induction l with
  | nil => rfl
  | cons a tl ih =>
    by_cases hak : a.key = k
    · rw [lruFind, if_pos hak] at h
      cases h
    · rw [lruFind, if_neg hak] at h
      simp [lruRemoveKey, hak, ih h]

theorem lruRemoveKey_length {k : K} {it : LruItem K V} {l : List (LruItem K V)}
    (hnod : (l.map LruItem.key).Nodup) (h : lruFind k l = some it) :
    (lruRemoveKey k l).length + 1 = l.length := by
  induction l with
  | nil => simp [lruFind] at h
  | cons a tl ih =>
    simp only [List.map_cons, List.nodup_cons] at hnod
    by_cases hak : a.key = k
    · have hnone : lruFind k tl = none := by
        cases hfind : lruFind k tl with
        | none => rfl
        | some x =>
          have hx := lruFind_mem hfind
          exact absurd ((hx.2.trans hak.symm) ▸ List.mem_map_of_mem LruItem.key hx.1)
            hnod.1
      simp [lruRemoveKey, hak, lruRemoveKey_of_none hnone]
    · rw [lruFind, if_neg hak] at h
      simp only [lruRemoveKey, if_neg hak, List.length_cons]
      rw [← ih hnod.2 h]

theorem lfuBucketFind_mem {k : K} {it : LfuItem K V} {b : List (LfuItem K V)}
    (h : lfuBucketFind k b = some it) : it ∈ b ∧ it.key = k := by
  induction b with
  | nil => simp [lfuBucketFind] at h
  | cons x tl ih =>
    by_cases hx : x.key = k
    · rw [lfuBucketFind, if_pos hx] at h
      cases h
      exact ⟨List.mem_cons_self _ _, hx⟩
    · rw [lfuBucketFind, if_neg hx] at h
      exact ⟨List.mem_cons_of_mem _ (ih h).1, (ih h).2⟩

theorem lfuItems_cons (f : Nat) (b : List (LfuItem K V)) (fl : List (Nat × List (LfuItem K V))) :
    lfuItems ((f, b) :: fl) = b ++ lfuItems fl := by
  simp [lfuItems]

theorem lfuFindItem_mem {k : K} {it : LfuItem K V} {fl : List (Nat × List (LfuItem K V))}
    (h : lfuFindItem k fl = some it) : it ∈ lfuItems fl ∧ it.key = k := by
  induction fl with
  | nil => simp [lfuFindItem] at h
  | cons hd tl ih =>
    obtain ⟨f, b⟩ := hd
    rw [lfuItems_cons]
    cases hb : lfuBucketFind k b with
    | some x =>
      rw [lfuFindItem, hb] at h
      cases h
      have hx := lfuBucketFind_mem hb
      exact ⟨List.mem_append_left _ hx.1, hx.2⟩
    | none =>
      rw [lfuFindItem, hb] at h
      exact ⟨List.mem_append_right _ (ih h).1, (ih h).2⟩

/-- C10 (confirmed): the introspection operations are pure readers — in
the embedding GetAll, Keys, Count and Len are functions of the state with
no state result, mirroring that the Go loops bodies only read — and an
expired-but-unswept entry is skipped by Keys, GetAll and Count (so Count
stays strictly below Len) yet remains stored; Get, by contrast, deletes
the expired entry it touches: its result state is exactly the Delete of
that key, with Len one smaller. -/
theorem claim_C10_introspection (now : Int) (k : K)
    (cm : MCache K V) (vm : ValueWithTimeout V)
    (hmn : (cm.m.map Prod.fst).Nodup)
    (hmg : assocGet k cm.m = some vm) (hme : isExpiredAt now vm.expireAt = true)
    (cr : LRUCache K V) (ir : LruItem K V)
    (hrn : (cr.evictionList.map LruItem.key).Nodup)
    (hrg : lruFind k cr.evictionList = some ir) (hre : isExpiredAt now ir.expireAt = true)
    (cf : LFUCache K V) (jf : LfuItem K V)
    (hfn : ((lfuItems cf.freqLists).map LfuItem.key).Nodup)
    (hfg : lfuFindItem k cf.freqLists = some jf) (hfe : isExpiredAt now jf.expireAt = true) :
    (k ∉ MCache.Keys now cm ∧ assocGet k (MCache.GetAll now cm) = none ∧
      MCache.Count now cm < MCache.Len cm ∧
      MCache.Get now k cm = (none, MCache.Delete k cm) ∧
      MCache.Len (MCache.Get now k cm).2 + 1 = MCache.Len cm) ∧
    (k ∉ LRUCache.Keys now cr ∧
      LRUCache.Count now cr < LRUCache.Len cr ∧
      LRUCache.Get now k cr = (none, LRUCache.Delete k cr) ∧
      LRUCache.Len (LRUCache.Get now k cr).2 + 1 = LRUCache.Len cr) ∧
    (k ∉ LFUCache.Keys now cf ∧
      LFUCache.Count now cf < LFUCache.Len cf ∧
      LFUCache.Get now k cf = (none, LFUCache.Delete k cf)) := by
  have hmlive : isLiveAt now vm.expireAt = false := expired_not_live hme
  have hrlive : isLiveAt now ir.expireAt = false := expired_not_live hre
  have hflive : isLiveAt now jf.expireAt = false := expired_not_live hfe
  refine ⟨⟨?_, ?_, ?_, ?_, ?_⟩, ⟨?_, ?_, ?_, ?_⟩, ⟨?_, ?_, ?_⟩⟩
  · intro hk
    obtain ⟨p, hpf, hp1⟩ := List.mem_map.mp hk
    obtain ⟨hpm, hpl⟩ := List.mem_filter.mp hpf
    have := assocGet_some_unique hmn hmg p hpm hp1
    rw [this] at hpl
    rw [hmlive] at hpl
    cases hpl
  · rw [assocGet_eq_none_iff]
    intro q hq
    obtain ⟨p, hpf, hpq⟩ := List.mem_map.mp hq
    obtain ⟨hpm, hpl⟩ := List.mem_filter.mp hpf
    intro hq1
    have hp1 : p.1 = k := by rw [← hpq] at hq1; exact hq1
    have := assocGet_some_unique hmn hmg p hpm hp1
    rw [this] at hpl
    rw [hmlive] at hpl
    cases hpl
  · exact filter_length_lt_of_mem (assocGet_mem hmg) hmlive
  · simp [MCache.Get, hmg, hme, MCache.Delete]
  · have hget : MCache.Get now k cm = (none, MCache.Delete k cm) := by
      simp [MCache.Get, hmg, hme, MCache.Delete]
    rw [hget]
    exact assocErase_length hmn hmg
  · intro hk
    obtain ⟨x, hxf, hx1⟩ := List.mem_map.mp hk
    obtain ⟨hxm, hxl⟩ := List.mem_filter.mp hxf
    have := lruFind_unique hrn hrg x hxm hx1
    rw [this] at hxl
    rw [hrlive] at hxl
    cases hxl
  · exact filter_length_lt_of_mem (lruFind_mem hrg).1 hrlive
  · simp [LRUCache.Get, hrg, hre, LRUCache.Delete]
  · have hget : LRUCache.Get now k cr = (none, LRUCache.Delete k cr) := by
      simp [LRUCache.Get, hrg, hre, LRUCache.Delete]
    rw [hget]
    exact lruRemoveKey_length hrn hrg
  · intro hk
    obtain ⟨x, hxf, hx1⟩ := List.mem_map.mp hk
    obtain ⟨hxm, hxl⟩ := List.mem_filter.mp hxf
    have hjm := lfuFindItem_mem hfg
    have hx : x = jf := List.inj_on_of_nodup_map hfn hxm hjm.1 (hx1.trans hjm.2.symm)
    rw [hx] at hxl
    rw [hflive] at hxl
    cases hxl
  · exact filter_length_lt_of_mem (lfuFindItem_mem hfg).1 hflive
  · simp [LFUCache.Get, hfg, hfe, LFUCache.Delete]

/-- C10 (witness): the statement applied to three concrete one-entry
stores whose entry expired at time 5, observed at time 100. -/
theorem claim_C10_witness :
    (((⟨2, [(1, ⟨10, 5⟩)], 0, false⟩ : MCache Nat Nat)).m.map Prod.fst).Nodup ∧
    isExpiredAt 100 (5 : Int) = true ∧
    MCache.Count 100 (⟨2, [(1, ⟨10, 5⟩)], 0, false⟩ : MCache Nat Nat) <
      MCache.Len (⟨2, [(1, ⟨10, 5⟩)], 0, false⟩ : MCache Nat Nat) :=
  ⟨by decide, by decide,
    ((claim_C10_introspection 100 1
      (⟨2, [(1, ⟨10, 5⟩)], 0, false⟩ : MCache Nat Nat) ⟨10, 5⟩
      (by decide) (by decide) (by decide)
      (⟨2, [⟨1, 10, 5⟩]⟩ : LRUCache Nat Nat) ⟨1, 10, 5⟩
      (by decide) (by decide) (by decide)
      (⟨2, 1, [(1, [⟨1, 10, 1, 5⟩])]⟩ : LFUCache Nat Nat) ⟨1, 10, 1, 5⟩
      (by decide) (by decide) (by decide)).1).2.2.1⟩

/-- C6 (confirmed): the LRU store at capacity evicts exactly the back of
the recency list, chosen with no expiry inspection (the statement needs no
hypothesis about any entry's expiry); concretely, with capacity 5,
inserting k1..k5, touching k1 and inserting k6 evicts k2 and keeps k1, and
a still-live back entry is evicted while a more recent expired entry
stays. -/
theorem claim_C6_lruEviction (now : Int) (k : K) (v : V) (cr : LRUCache K V)
    (hcap : cr.evictionList.length = cr.size) (hpos : 0 < cr.size)
    (hnew : lruFind k cr.evictionList = none) :
    (LRUCache.Set now k v cr).evictionList = ⟨k, v, 0⟩ :: cr.evictionList.dropLast ∧
    (([1, 2, 3, 4, 5].foldl (fun c j => LRUCache.Set 100 j (10 * j) c)
        (LRUCache.new Nat Nat 5) |> (fun c => (LRUCache.Get 100 1 c).2)
      |> LRUCache.Set 100 6 60).evictionList.map (fun it => it.key)) = [6, 1, 5, 4, 3] ∧
    isExpiredAt 100 (5 : Int) = true ∧ isLiveAt 100 (0 : Int) = true ∧
    (LRUCache.Set 100 3 30 (⟨2, [⟨1, 10, 5⟩, ⟨2, 20, 0⟩]⟩ : LRUCache Nat Nat)).evictionList =
      [⟨3, 30, 0⟩, ⟨1, 10, 5⟩] := by
  refine ⟨?_, by decide, by decide, by decide, by decide⟩
  have hsz : ¬ cr.size = 0 := by omega
  have hne : cr.evictionList.isEmpty = false := by
    cases h : cr.evictionList with
    | nil => rw [h] at hcap; simp at hcap; omega
    | cons a tl => rfl
  simp only [LRUCache.Set, LRUCache.set, if_neg hsz, hnew, Option.isSome_none,
    Bool.false_eq_true, if_false, if_pos (le_of_eq hcap.symm), lruEvict, hne]
  norm_num

/-- C6 (witness): the general back-eviction equation applied to a concrete
full store whose back entry is live and front entry expired. -/
theorem claim_C6_witness :
    ((⟨2, [⟨1, 10, 5⟩, ⟨2, 20, 0⟩]⟩ : LRUCache Nat Nat).evictionList.length = 2 ∧
      (0 : Nat) < 2 ∧ lruFind 3 (⟨2, [⟨1, 10, 5⟩, ⟨2, 20, 0⟩]⟩ :
        LRUCache Nat Nat).evictionList = none) ∧
    (LRUCache.Set 100 3 30 (⟨2, [⟨1, 10, 5⟩, ⟨2, 20, 0⟩]⟩ : LRUCache Nat Nat)).evictionList =
      ⟨3, 30, 0⟩ :: [⟨1, 10, 5⟩, ⟨2, 20, 0⟩].dropLast :=
  ⟨⟨by decide, by decide, by decide⟩,
    (claim_C6_lruEviction 100 3 30 (⟨2, [⟨1, 10, 5⟩, ⟨2, 20, 0⟩]⟩ : LRUCache Nat Nat)
      (by decide) (by decide) (by decide)).1⟩

theorem assocPut_length_le {A : Type} (k : K) (v : A) (m : List (K × A)) :
    (assocPut k v m).length ≤ m.length + 1 := by
  by_cases h : (assocGet k m).isSome
  · rw [assocPut_length_of_some h]
    omega
  · rw [assocPut_length_of_none (Option.not_isSome_iff_eq_none.mp h)]

/-- With free room, the manual Set is exactly the map write, for both the
update and the insert branch. -/
theorem mcacheSet_step (now : Int) (k : K) (v : V) {d : MCache K V}
    (hroom : d.m.length < d.size) :
    (MCache.Set now k v d).m = assocPut k ⟨v, 0⟩ d.m ∧
    (MCache.Set now k v d).size = d.size := by
  have hsz : ¬ d.size = 0 := by omega
  by_cases h : (assocGet k d.m).isSome
  · simp [MCache.Set, if_neg hsz, h]
  · have hno : ¬ d.size ≤ d.m.length := by omega
    simp [MCache.Set, if_neg hsz, h, if_neg hno]

theorem mcacheFoldSet_spec (now : Int) (ps : List (K × V)) (d : MCache K V)
    (hnodup : (ps.map Prod.fst).Nodup)
    (hroom : d.m.length + ps.length ≤ d.size) :
    (ps.foldl (fun d p => MCache.Set now p.1 p.2 d) d).size = d.size ∧
    (ps.foldl (fun d p => MCache.Set now p.1 p.2 d) d).m.length ≤ d.m.length + ps.length ∧
    (∀ j, j ∉ ps.map Prod.fst →
      assocGet j (ps.foldl (fun d p => MCache.Set now p.1 p.2 d) d).m = assocGet j d.m) ∧
    (∀ p ∈ ps,
      assocGet p.1 (ps.foldl (fun d p => MCache.Set now p.1 p.2 d) d).m = some ⟨p.2, 0⟩) := by
  induction ps generalizing d with
  | nil => exact ⟨rfl, by simp, fun j _ => rfl, fun p hp => absurd hp (List.not_mem_nil p)⟩
  | cons q rest ih =>
    obtain ⟨k0, v0⟩ := q
    simp only [List.map_cons, List.nodup_cons] at hnodup
    simp only [List.length_cons] at hroom
    have hroom0 : d.m.length < d.size := by omega
    obtain ⟨hm1, hs1⟩ := mcacheSet_step now k0 v0 hroom0
    have hlen1 : (MCache.Set now k0 v0 d).m.length ≤ d.m.length + 1 := by
      rw [hm1]
      exact assocPut_length_le k0 _ d.m
    have hroom1 : (MCache.Set now k0 v0 d).m.length + rest.length ≤
        (MCache.Set now k0 v0 d).size := by
      rw [hs1]
      omega
    obtain ⟨ihs, ihl, ihuntouched, ihmem⟩ := ih (MCache.Set now k0 v0 d) hnodup.2 hroom1
    simp only [List.foldl_cons]
    refine ⟨by rw [ihs, hs1], by simp only [List.length_cons]; omega, ?_, ?_⟩
    · intro j hj
      simp only [List.map_cons, List.mem_cons, not_or] at hj
      rw [ihuntouched j hj.2, hm1, assocGet_put_other (fun h => hj.1 h.symm)]
    · intro p hp
      rcases List.mem_cons.mp hp with rfl | hp
      · rw [ihuntouched (k0, v0).1 hnodup.1, hm1]
        exact assocGet_put_self _ _ _
      · exact ihmem p hp

theorem lruRemoveKey_length_le {k : K} (l : List (LruItem K V)) :
    (lruRemoveKey k l).length ≤ l.length := by
  induction l with
  | nil => simp [lruRemoveKey]
  | cons a tl ih =>
    by_cases hak : a.key = k
    · simp only [lruRemoveKey, if_pos hak, List.length_cons]
      omega
    · simp only [lruRemoveKey, if_neg hak, List.length_cons]
      omega

theorem lruFind_removeKey_other {k j : K} (hkj : k ≠ j) (l : List (LruItem K V)) :
    lruFind j (lruRemoveKey k l) = lruFind j l := by
  induction l with
  | nil => rfl
  | cons a tl ih =>
    by_cases hak : a.key = k
    · have haj : ¬ a.key = j := fun h => hkj (hak ▸ h)
      simp only [lruRemoveKey, if_pos hak, lruFind, if_neg haj, ih]
    · simp only [lruRemoveKey, if_neg hak, lruFind]
      by_cases haj : a.key = j
      · simp [haj]
      · simp [haj, ih]

/-- With free room, the LRU set with no timeout is exactly: push the fresh
node to the front of the list purged of that key, for both the update and
the insert branch. -/
theorem lruSet_step (now : Int) (k : K) (v : V) {d : LRUCache K V}
    (hroom : d.evictionList.length < d.size) :
    (LRUCache.set now k v 0 d).evictionList = ⟨k, v, 0⟩ :: lruRemoveKey k d.evictionList ∧
    (LRUCache.set now k v 0 d).size = d.size := by
  have hsz : ¬ d.size = 0 := by omega
  cases h : lruFind k d.evictionList with
  | some it =>
    simp [LRUCache.set, if_neg hsz, h]
  | none =>
    have hno : ¬ d.size ≤ d.evictionList.length := by omega
    simp [LRUCache.set, if_neg hsz, h, if_neg hno, lruRemoveKey_of_none h]

theorem lruFoldSet_spec (now : Int) (ps : List (K × V)) (d : LRUCache K V)
    (hnodup : (ps.map Prod.fst).Nodup)
    (hroom : d.evictionList.length + ps.length ≤ d.size) :
    (ps.foldl (fun d p => LRUCache.set now p.1 p.2 0 d) d).size = d.size ∧
    (ps.foldl (fun d p => LRUCache.set now p.1 p.2 0 d) d).evictionList.length ≤
      d.evictionList.length + ps.length ∧
    (∀ j, j ∉ ps.map Prod.fst →
      lruFind j (ps.foldl (fun d p => LRUCache.set now p.1 p.2 0 d) d).evictionList =
        lruFind j d.evictionList) ∧
    (∀ p ∈ ps,
      lruFind p.1 (ps.foldl (fun d p => LRUCache.set now p.1 p.2 0 d) d).evictionList =
        some ⟨p.1, p.2, 0⟩) := by
  induction ps generalizing d with
  | nil => exact ⟨rfl, by simp, fun j _ => rfl, fun p hp => absurd hp (List.not_mem_nil p)⟩
  | cons q rest ih =>
    obtain ⟨k0, v0⟩ := q
    simp only [List.map_cons, List.nodup_cons] at hnodup
    simp only [List.length_cons] at hroom
    have hroom0 : d.evictionList.length < d.size := by omega
    obtain ⟨hm1, hs1⟩ := lruSet_step now k0 v0 hroom0
    have hlen1 : (LRUCache.set now k0 v0 0 d).evictionList.length ≤
        d.evictionList.length + 1 := by
      rw [hm1]
      simp only [List.length_cons]
      have := lruRemoveKey_length_le (k := k0) d.evictionList
      omega
    have hroom1 : (LRUCache.set now k0 v0 0 d).evictionList.length + rest.length ≤
        (LRUCache.set now k0 v0 0 d).size := by
      rw [hs1]
      omega
    obtain ⟨ihs, ihl, ihuntouched, ihmem⟩ := ih (LRUCache.set now k0 v0 0 d) hnodup.2 hroom1
    simp only [List.foldl_cons]
    refine ⟨by rw [ihs, hs1], by simp only [List.length_cons]; omega, ?_, ?_⟩
    · intro j hj
      simp only [List.map_cons, List.mem_cons, not_or] at hj
      rw [ihuntouched j hj.2, hm1, lruFind]
      have : ¬ (LruItem.key ⟨k0, v0, 0⟩ = j) := fun h => hj.1 h.symm
      rw [if_neg this, lruFind_removeKey_other (fun h => hj.1 h.symm)]
    · intro p hp
      rcases List.mem_cons.mp hp with rfl | hp
      · rw [ihuntouched (k0, v0).1 hnodup.1, hm1, lruFind]
        simp
      · exact ihmem p hp

theorem lruFind_eq_none_iff {k : K} (l : List (LruItem K V)) :
    lruFind k l = none ↔ ∀ x ∈ l, x.key ≠ k := by
  induction l with
  | nil => simp [lruFind]
  | cons a tl ih =>
    by_cases hak : a.key = k
    · simp [lruFind, hak]
    · simp [lruFind, hak, ih]

theorem assocGet_filter_notLive {now : Int} {src : List (K × ValueWithTimeout V)}
    (hnod : (src.map Prod.fst).Nodup) {k : K} {val : ValueWithTimeout V}
    (hget : assocGet k src = some val) (hlive : isLiveAt now val.expireAt = true) :
    assocGet k (src.filter (fun p => !(isLiveAt now p.2.expireAt))) = none := by
  rw [assocGet_eq_none_iff]
  intro p hp hpk
  obtain ⟨hpm, hpf⟩ := List.mem_filter.mp hp
  rw [assocGet_some_unique hnod hget p hpm hpk, hlive] at hpf
  cases hpf

theorem lruFind_filter_notLive {now : Int} {l : List (LruItem K V)}
    (hnod : (l.map LruItem.key).Nodup) {k : K} {it : LruItem K V}
    (hget : lruFind k l = some it) (hlive : isLiveAt now it.expireAt = true) :
    lruFind k (l.filter (fun x => !(isLiveAt now x.expireAt))) = none := by
  rw [lruFind_eq_none_iff]
  intro x hx hxk
  obtain ⟨hxm, hxf⟩ := List.mem_filter.mp hx
  rw [lruFind_unique hnod hget x hxm hxk, hlive] at hxf
  cases hxf

/-- C2 (counterexample): transferring into a destination already at
capacity evicts an unrelated live destination key. Source {1 ↦ 10} and
destination {2 ↦ 20}, both capacity 1: after TransferTo, key 2 — live,
not among the transferred keys — has lost its binding. -/
theorem claim_C2_counterexample :
    (2 : Nat) ∉ MCache.Keys 100 (⟨1, [(1, ⟨10, 0⟩)], 0, false⟩ : MCache Nat Nat) ∧
    assocGet 2 (⟨1, [(2, ⟨20, 0⟩)], 0, false⟩ : MCache Nat Nat).m = some ⟨20, 0⟩ ∧
    isLiveAt 100 (0 : Int) = true ∧
    assocGet 2 ((MCache.TransferTo 100 (⟨1, [(1, ⟨10, 0⟩)], 0, false⟩ : MCache Nat Nat)
      (⟨1, [(2, ⟨20, 0⟩)], 0, false⟩ : MCache Nat Nat)).2).m = none := by
  refine ⟨by decide, by decide, by decide, by decide⟩

theorem assocPut_of_none {A : Type} {f : K} {fl : List (K × A)} (b : A)
    (h : assocGet f fl = none) : assocPut f b fl = fl ++ [(f, b)] := by
  induction fl with
  | nil => rfl
  | cons hd tl ih =>
    obtain ⟨a, w⟩ := hd
    by_cases haf : a = f
    · subst haf
      simp [assocGet] at h
    · simp only [assocGet, if_neg haf] at h
      simp [assocPut, haf, ih h]

theorem assocGet_of_mem {A : Type} {f : K} {b : A} {fl : List (K × A)}
    (hnod : (fl.map Prod.fst).Nodup) (hmem : (f, b) ∈ fl) : assocGet f fl = some b := by
  induction fl with
  | nil => cases hmem
  | cons hd tl ih =>
    obtain ⟨a, w⟩ := hd
    simp only [List.map_cons, List.nodup_cons] at hnod
    rcases List.mem_cons.mp hmem with heq | hmem
    · cases heq
      simp [assocGet]
    · have haf : a ≠ f := by
        intro h
        subst h
        exact hnod.1 (List.mem_map_of_mem Prod.fst hmem)
      simp only [assocGet, if_neg haf]
      exact ih hnod.2 hmem

/-- Structural decomposition of a map around a present key: the unique
binding splits the association list, and the write, the deletion and the
read act on the middle. -/
theorem assocGet_decomp {A : Type} {f : K} {b : A} {fl : List (K × A)}
    (hnod : (fl.map Prod.fst).Nodup) (hget : assocGet f fl = some b) :
    ∃ pre post, fl = pre ++ (f, b) :: post ∧ (∀ q ∈ pre, q.1 ≠ f) ∧
      (∀ q ∈ post, q.1 ≠ f) ∧ (∀ b2, assocPut f b2 fl = pre ++ (f, b2) :: post) ∧
      assocErase f fl = pre ++ post := by
  induction fl with
  | nil => simp [assocGet] at hget
  | cons hd tl ih =>
    obtain ⟨a, w⟩ := hd
    simp only [List.map_cons, List.nodup_cons] at hnod
    by_cases haf : a = f
    · subst haf
      rw [assocGet, if_pos rfl] at hget
      cases hget
      refine ⟨[], tl, rfl, by simp, ?_, ?_, ?_⟩
      · intro q hq hqa
        exact hnod.1 (hqa ▸ List.mem_map_of_mem Prod.fst hq)
      · intro b2
        simp [assocPut]
      · have hnone : assocGet a tl = none := by
          rw [assocGet_eq_none_iff]
          intro p hp hpa
          exact hnod.1 (hpa ▸ List.mem_map_of_mem Prod.fst hp)
        simp [assocErase, assocErase_of_none hnone]
    · rw [assocGet, if_neg haf] at hget
      obtain ⟨pre, post, h1, h2, h3, h4, h5⟩ := ih hnod.2 hget
      refine ⟨(a, w) :: pre, post, by rw [h1]; rfl, ?_, h3, ?_, ?_⟩
      · intro q hq
        rcases List.mem_cons.mp hq with rfl | hq
        · exact haf
        · exact h2 q hq
      · intro b2
        simp [assocPut, haf, h4 b2]
      · simp [assocErase, haf, h5]

theorem lfuItems_append (l1 l2 : List (Nat × List (LfuItem K V))) :
    lfuItems (l1 ++ l2) = lfuItems l1 ++ lfuItems l2 := by
  simp [lfuItems]

theorem lfu_mem_items_of_mem_bucket {f : Nat} {b : List (LfuItem K V)}
    {fl : List (Nat × List (LfuItem K V))} (hmem : (f, b) ∈ fl) {x : LfuItem K V}
    (hx : x ∈ b) : x ∈ lfuItems fl := by
  induction fl with
  | nil => cases hmem
  | cons hd tl ih =>
    obtain ⟨g, c⟩ := hd
    rw [lfuItems_cons]
    rcases List.mem_cons.mp hmem with heq | hmem
    · cases heq
      exact List.mem_append_left _ hx
    · exact List.mem_append_right _ (ih hmem)

theorem lfuBucketRemove_sublist (k : K) (b : List (LfuItem K V)) :
    List.Sublist (lfuBucketRemove k b) b := by
  induction b with
  | nil => simp [lfuBucketRemove]
  | cons x tl ih =>
    by_cases hx : x.key = k
    · simp only [lfuBucketRemove, if_pos hx]
      exact ih.cons _
    · simp only [lfuBucketRemove, if_neg hx]
      exact ih.cons₂ _

theorem lfuBucketRemove_count_self (k : K) (b : List (LfuItem K V)) :
    List.count k ((lfuBucketRemove k b).map LfuItem.key) = 0 := by
  induction b with
  | nil => simp [lfuBucketRemove]
  | cons x tl ih =>
    by_cases hx : x.key = k
    · simp only [lfuBucketRemove, if_pos hx]
      exact ih
    · simp only [lfuBucketRemove, if_neg hx, List.map_cons]
      rw [List.count_cons_of_ne (fun h => hx h.symm)]
      exact ih

theorem lfuBucketRemove_count_other {k j : K} (hjk : j ≠ k) (b : List (LfuItem K V)) :
    List.count j ((lfuBucketRemove k b).map LfuItem.key) =
      List.count j (b.map LfuItem.key) := by
  induction b with
  | nil => rfl
  | cons x tl ih =>
    by_cases hx : x.key = k
    · simp only [lfuBucketRemove, if_pos hx, List.map_cons]
      rw [List.count_cons_of_ne (fun h => hjk (h.trans hx))]
      exact ih
    · simp only [lfuBucketRemove, if_neg hx, List.map_cons, List.count_cons]
      rw [ih]

theorem lfuBucketRemove_length (k : K) (b : List (LfuItem K V)) :
    (lfuBucketRemove k b).length + List.count k (b.map LfuItem.key) = b.length := by
  induction b with
  | nil => rfl
  | cons x tl ih =>
    by_cases hx : x.key = k
    · have h1 : lfuBucketRemove k (x :: tl) = lfuBucketRemove k tl := by
        simp [lfuBucketRemove, hx]
      rw [h1, List.map_cons, hx, List.count_cons_self, List.length_cons]
      omega
    · simp only [lfuBucketRemove, if_neg hx, List.map_cons, List.length_cons]
      rw [List.count_cons_of_ne (fun h => hx h.symm)]
      omega

theorem lfuBucketRemove_mem_of_ne {k : K} {b : List (LfuItem K V)} {x : LfuItem K V}
    (hx : x ∈ b) (hne : x.key ≠ k) : x ∈ lfuBucketRemove k b := by
  induction b with
  | nil => cases hx
  | cons y tl ih =>
    by_cases hy : y.key = k
    · simp only [lfuBucketRemove, if_pos hy]
      rcases List.mem_cons.mp hx with rfl | hx
      · exact absurd hy hne
      · exact ih hx
    · simp only [lfuBucketRemove, if_neg hy]
      rcases List.mem_cons.mp hx with rfl | hx
      · exact List.mem_cons_self _ _
      · exact List.mem_cons_of_mem _ (ih hx)

theorem lfuBucketFind_isSome {k : K} {b : List (LfuItem K V)} {x : LfuItem K V}
    (hx : x ∈ b) (hk : x.key = k) : (lfuBucketFind k b).isSome := by
  induction b with
  | nil => cases hx
  | cons z tl ih =>
    by_cases hz : z.key = k
    · simp [lfuBucketFind, hz]
    · rcases List.mem_cons.mp hx with rfl | hx2
      · exact absurd hk hz
      · simp only [lfuBucketFind, if_neg hz]
        exact ih hx2

theorem lfuFindItem_eq_none_iff {k : K} (fl : List (Nat × List (LfuItem K V))) :
    lfuFindItem k fl = none ↔ ∀ x ∈ lfuItems fl, x.key ≠ k := by
  induction fl with
  | nil => simp [lfuFindItem, lfuItems]
  | cons hd tl ih =>
    obtain ⟨f, b⟩ := hd
    rw [lfuItems_cons]
    constructor
    · intro h x hx hxk
      rw [lfuFindItem] at h
      cases hb : lfuBucketFind k b with
      | some y => rw [hb] at h; cases h
      | none =>
        rw [hb] at h
        rcases List.mem_append.mp hx with hxb | hxt
        · have hs := lfuBucketFind_isSome hxb hxk
          rw [hb] at hs
          cases hs
        · exact (ih.mp h) x hxt hxk
    · intro h
      rw [lfuFindItem]
      cases hb : lfuBucketFind k b with
      | some y =>
        have hy := lfuBucketFind_mem hb
        exact absurd hy.2 (h y (List.mem_append_left _ hy.1))
      | none =>
        exact ih.mpr (fun x hx => h x (List.mem_append_right _ hx))

theorem lfuBucketFind_of_mem {b : List (LfuItem K V)} {x : LfuItem K V}
    (hnod : (b.map LfuItem.key).Nodup) (hx : x ∈ b) : lfuBucketFind x.key b = some x := by
  induction b with
  | nil => cases hx
  | cons z tl ih =>
    simp only [List.map_cons, List.nodup_cons] at hnod
    rcases List.mem_cons.mp hx with rfl | hx2
    · simp [lfuBucketFind]
    · have hz : z.key ≠ x.key := by
        intro h
        exact hnod.1 (h ▸ List.mem_map_of_mem LfuItem.key hx2)
      simp only [lfuBucketFind, if_neg hz]
      exact ih hnod.2 hx2

theorem lfuFindItem_of_mem {fl : List (Nat × List (LfuItem K V))} {x : LfuItem K V}
    (hnod : ((lfuItems fl).map LfuItem.key).Nodup) (hx : x ∈ lfuItems fl) :
    lfuFindItem x.key fl = some x := by
  induction fl with
  | nil => cases hx
  | cons hd tl ih =>
    obtain ⟨f, b⟩ := hd
    rw [lfuItems_cons] at hx hnod
    rw [List.map_append, List.nodup_append] at hnod
    rcases List.mem_append.mp hx with hxb | hxt
    · rw [lfuFindItem, lfuBucketFind_of_mem hnod.1 hxb]
    · have hb : lfuBucketFind x.key b = none := by
        cases hfind : lfuBucketFind x.key b with
        | none => rfl
        | some y =>
          have hy := lfuBucketFind_mem hfind
          have h1 : y.key ∈ b.map LfuItem.key := List.mem_map_of_mem LfuItem.key hy.1
          have h2 : x.key ∈ (lfuItems tl).map LfuItem.key :=
            List.mem_map_of_mem LfuItem.key hxt
          rw [← hy.2] at h2
          exact absurd h2 (hnod.2.2 h1)
      rw [lfuFindItem, hb]
      exact ih hnod.2.1 hxt

theorem lfuFindItem_locate {k : K} {it : LfuItem K V} {fl : List (Nat × List (LfuItem K V))}
    (h : lfuFindItem k fl = some it) : ∃ f b, (f, b) ∈ fl ∧ it ∈ b := by
  induction fl with
  | nil => simp [lfuFindItem] at h
  | cons hd tl ih =>
    obtain ⟨f, b⟩ := hd
    rw [lfuFindItem] at h
    cases hb : lfuBucketFind k b with
    | some y =>
      rw [hb] at h
      cases h
      exact ⟨f, b, List.mem_cons_self _ _, (lfuBucketFind_mem hb).1⟩
    | none =>
      rw [hb] at h
      obtain ⟨f2, b2, hmem, hin⟩ := ih h
      exact ⟨f2, b2, List.mem_cons_of_mem _ hmem, hin⟩

theorem lfuUpdateItem_items (k : K) (v : V) (e : Int) (fl : List (Nat × List (LfuItem K V))) :
    lfuItems (lfuUpdateItem k v e fl) = (lfuItems fl).map (fun it =>
      if it.key = k then { it with value := v, expireAt := e } else it) := by
  simp only [lfuItems, lfuUpdateItem, List.map_map, List.map_flatten]
  rfl

theorem lfuUpdateItem_get (k : K) (v : V) (e : Int) (f : Nat)
    (fl : List (Nat × List (LfuItem K V))) :
    assocGet f (lfuUpdateItem k v e fl) = (assocGet f fl).map (List.map (fun it =>
      if it.key = k then { it with value := v, expireAt := e } else it)) := by
  induction fl with
  | nil => rfl
  | cons hd tl ih =>
    obtain ⟨g, b⟩ := hd
    by_cases hgf : g = f
    · subst hgf
      simp [lfuUpdateItem, assocGet]
    · simp only [lfuUpdateItem, List.map_cons, assocGet, if_neg hgf]
      exact ih

theorem lfuUpdateItem_keys (k : K) (v : V) (e : Int) (fl : List (Nat × List (LfuItem K V))) :
    (lfuItems (lfuUpdateItem k v e fl)).map LfuItem.key = (lfuItems fl).map LfuItem.key := by
  rw [lfuUpdateItem_items, List.map_map]
  congr 1
  funext it
  by_cases h : it.key = k
  · simp [h]
  · simp [h]

theorem lfuUpdateItem_fst (k : K) (v : V) (e : Int) (fl : List (Nat × List (LfuItem K V))) :
    (lfuUpdateItem k v e fl).map Prod.fst = fl.map Prod.fst := by
  rw [lfuUpdateItem, List.map_map]
  rfl

theorem lfuUpdateItem_freqs (k : K) (v : V) (e : Int) {fl : List (Nat × List (LfuItem K V))}
    (ha : ∀ p ∈ fl, ∀ it ∈ p.2, it.freq = p.1) :
    ∀ p ∈ lfuUpdateItem k v e fl, ∀ it ∈ p.2, it.freq = p.1 := by
  intro p hp it hit
  rw [lfuUpdateItem] at hp
  obtain ⟨q, hq, rfl⟩ := List.mem_map.mp hp
  simp only at hit
  obtain ⟨y, hy, rfl⟩ := List.mem_map.mp hit
  have := ha q hq y hy
  by_cases h : y.key = k
  · simp [h]
    exact this
  · simp [h]
    exact this

theorem assocErase_append_middle {A : Type} {f : K} {b1 : A}
    {pre post : List (K × A)} (hpre : ∀ q ∈ pre, q.1 ≠ f) (hpost : ∀ q ∈ post, q.1 ≠ f) :
    assocErase f (pre ++ (f, b1) :: post) = pre ++ post := by
  induction pre with
  | nil =>
    simp only [List.nil_append, assocErase, if_pos rfl]
    apply assocErase_of_none
    rw [assocGet_eq_none_iff]
    exact hpost
  | cons q tlp ih =>
    obtain ⟨a, w⟩ := q
    have ha : a ≠ f := hpre (a, w) (List.mem_cons_self _ _)
    simp only [List.cons_append, assocErase, if_neg ha, List.append_eq]
    rw [ih (fun q hq => hpre q (List.mem_cons_of_mem _ hq))]

theorem lfuDeleteKey_spec (k : K) (s : LFUCache K V) (it : LfuItem K V)
    (ha : ∀ p ∈ s.freqLists, ∀ x ∈ p.2, x.freq = p.1)
    (hkeys : ((lfuItems s.freqLists).map LfuItem.key).Nodup)
    (hfst : (s.freqLists.map Prod.fst).Nodup)
    (hfind : lfuFindItem k s.freqLists = some it) :
    (LFUCache.deleteKey k s).size = s.size ∧
    lfuLen (LFUCache.deleteKey k s).freqLists + 1 = lfuLen s.freqLists ∧
    List.Sublist (lfuItems (LFUCache.deleteKey k s).freqLists) (lfuItems s.freqLists) ∧
    (∀ x ∈ lfuItems (LFUCache.deleteKey k s).freqLists, x.key ≠ k) ∧
    (∀ x ∈ lfuItems s.freqLists, x.key ≠ k →
      x ∈ lfuItems (LFUCache.deleteKey k s).freqLists) ∧
    (∀ p ∈ (LFUCache.deleteKey k s).freqLists, ∀ x ∈ p.2, x.freq = p.1) ∧
    ((LFUCache.deleteKey k s).freqLists.map Prod.fst).Nodup := by
  have hkm := lfuFindItem_mem hfind
  obtain ⟨f, b, hmem, hin⟩ := lfuFindItem_locate hfind
  have hf : it.freq = f := ha (f, b) hmem it hin
  have hget : assocGet it.freq s.freqLists = some b := by
    rw [hf]
    exact assocGet_of_mem hfst hmem
  obtain ⟨pre, post, hfl, hpre, hpost, hput, herase⟩ := assocGet_decomp hfst hget
  have hitems : lfuItems s.freqLists = lfuItems pre ++ (b ++ lfuItems post) := by
    rw [hfl, lfuItems_append, lfuItems_cons]
  have hkmem : k ∈ b.map LfuItem.key := hkm.2 ▸ List.mem_map_of_mem LfuItem.key hin
  have hkb : 1 ≤ List.count k (b.map LfuItem.key) := List.count_pos_iff.mpr hkmem
  have htot : List.count k ((lfuItems s.freqLists).map LfuItem.key) ≤ 1 :=
    List.nodup_iff_count_le_one.mp hkeys k
  have hsplit : List.count k ((lfuItems pre).map LfuItem.key) = 0 ∧
      List.count k (b.map LfuItem.key) = 1 ∧
      List.count k ((lfuItems post).map LfuItem.key) = 0 := by
    rw [hitems] at htot
    simp only [List.map_append, List.count_append] at htot
    omega
  have hb1len : (lfuBucketRemove k b).length + 1 = b.length := by
    have := lfuBucketRemove_length k b
    omega
  have hnotpre : ∀ x ∈ lfuItems pre, x.key ≠ k := by
    intro x hx hxk
    have : k ∈ (lfuItems pre).map LfuItem.key := hxk ▸ List.mem_map_of_mem LfuItem.key hx
    have := List.count_pos_iff.mpr this
    omega
  have hnotpost : ∀ x ∈ lfuItems post, x.key ≠ k := by
    intro x hx hxk
    have : k ∈ (lfuItems post).map LfuItem.key := hxk ▸ List.mem_map_of_mem LfuItem.key hx
    have := List.count_pos_iff.mpr this
    omega
  have hnotb1 : ∀ x ∈ lfuBucketRemove k b, x.key ≠ k := by
    intro x hx hxk
    have h1 : x.key ∈ ((lfuBucketRemove k b).map LfuItem.key) :=
      List.mem_map_of_mem LfuItem.key hx
    rw [hxk] at h1
    have h2 := List.count_pos_iff.mpr h1
    rw [lfuBucketRemove_count_self] at h2
    omega
  by_cases hb1 : (lfuBucketRemove k b).isEmpty
  · -- the bucket empties: it is dropped from the map
    have hb1nil : lfuBucketRemove k b = [] := List.isEmpty_iff.mp hb1
    have hfl2 : assocErase it.freq (assocPut it.freq (lfuBucketRemove k b) s.freqLists) =
        pre ++ post := by
      rw [hput (lfuBucketRemove k b)]
      exact assocErase_append_middle hpre hpost
    have hstate : (LFUCache.deleteKey k s).freqLists = pre ++ post ∧
        (LFUCache.deleteKey k s).size = s.size := by
      simp only [LFUCache.deleteKey, hfind, hget, hb1, if_true, hfl2]
      by_cases hmf : it.freq = s.minFreq
      · simp [hmf]
      · simp [hmf]
    have hb1z : (lfuBucketRemove k b).length = 0 := by rw [hb1nil]; rfl
    have hblen : b.length = 1 := by omega
    have hitems2 : lfuItems (pre ++ post) = lfuItems pre ++ lfuItems post :=
      lfuItems_append pre post
    refine ⟨hstate.2, ?_, ?_, ?_, ?_, ?_, ?_⟩
    · rw [hstate.1]
      simp only [lfuLen, hitems, hitems2, List.length_append]
      omega
    · rw [hstate.1, hitems, hitems2]
      exact (List.Sublist.refl _).append ((List.nil_sublist b).append (List.Sublist.refl _))
    · rw [hstate.1, hitems2]
      intro x hx
      rcases List.mem_append.mp hx with hx | hx
      · exact hnotpre x hx
      · exact hnotpost x hx
    · rw [hstate.1, hitems2]
      intro x hx hxk
      rw [hitems] at hx
      rcases List.mem_append.mp hx with hx | hx
      · exact List.mem_append_left _ hx
      · rcases List.mem_append.mp hx with hx | hx
        · have : x ∈ lfuBucketRemove k b := lfuBucketRemove_mem_of_ne hx hxk
          rw [hb1nil] at this
          cases this
        · exact List.mem_append_right _ hx
    · rw [hstate.1]
      intro p hp
      have : p ∈ s.freqLists := by
        rw [hfl]
        rcases List.mem_append.mp hp with hp | hp
        · exact List.mem_append_left _ hp
        · exact List.mem_append_right _ (List.mem_cons_of_mem _ hp)
      exact ha p this
    · rw [hstate.1]
      have : List.Sublist ((pre ++ post).map Prod.fst) (s.freqLists.map Prod.fst) := by
        rw [hfl]
        simp only [List.map_append, List.map_cons]
        exact (List.Sublist.refl _).append ((List.sublist_cons_self _ _).trans
          (List.Sublist.refl _))
      exact hfst.sublist this
  · -- the bucket stays, shortened in place
    have hb1f : (lfuBucketRemove k b).isEmpty = false := Bool.eq_false_iff.mpr hb1
    have hstate : (LFUCache.deleteKey k s).freqLists =
        pre ++ (it.freq, lfuBucketRemove k b) :: post ∧
        (LFUCache.deleteKey k s).size = s.size := by
      simp only [LFUCache.deleteKey, hfind, hget, hb1f, Bool.false_eq_true, if_false,
        hput (lfuBucketRemove k b)]
      exact ⟨trivial, trivial⟩
    have hitems2 : lfuItems (pre ++ (it.freq, lfuBucketRemove k b) :: post) =
        lfuItems pre ++ (lfuBucketRemove k b ++ lfuItems post) := by
      rw [lfuItems_append, lfuItems_cons]
    refine ⟨hstate.2, ?_, ?_, ?_, ?_, ?_, ?_⟩
    · rw [hstate.1]
      simp only [lfuLen, hitems, hitems2, List.length_append]
      omega
    · rw [hstate.1, hitems, hitems2]
      exact (List.Sublist.refl _).append ((lfuBucketRemove_sublist k b).append
        (List.Sublist.refl _))
    · rw [hstate.1, hitems2]
      intro x hx
      rcases List.mem_append.mp hx with hx | hx
      · exact hnotpre x hx
      · rcases List.mem_append.mp hx with hx | hx
        · exact hnotb1 x hx
        · exact hnotpost x hx
    · rw [hstate.1, hitems2]
      intro x hx hxk
      rw [hitems] at hx
      rcases List.mem_append.mp hx with hx | hx
      · exact List.mem_append_left _ hx
      · rcases List.mem_append.mp hx with hx | hx
        · exact List.mem_append_right _
            (List.mem_append_left _ (lfuBucketRemove_mem_of_ne hx hxk))
        · exact List.mem_append_right _ (List.mem_append_right _ hx)
    · rw [hstate.1]
      intro p hp
      rcases List.mem_append.mp hp with hp | hp
      · exact ha p (by rw [hfl]; exact List.mem_append_left _ hp)
      · rcases List.mem_cons.mp hp with rfl | hp
        · intro x hx
          have hxb : x ∈ b := (lfuBucketRemove_sublist k b).subset hx
          exact ha (f, b) hmem x hxb |>.trans hf.symm
        · exact ha p (by rw [hfl]; exact List.mem_append_right _ (List.mem_cons_of_mem _ hp))
    · rw [hstate.1]
      have heq : ((pre ++ (it.freq, lfuBucketRemove k b) :: post).map Prod.fst) =
          (s.freqLists.map Prod.fst) := by
        rw [hfl]
        simp
      rw [heq]
      exact hfst

theorem lfuBucketRemove_of_count_zero {k : K} {b : List (LfuItem K V)}
    (h : List.count k (b.map LfuItem.key) = 0) : lfuBucketRemove k b = b := by
  induction b with
  | nil => rfl
  | cons y tl ih =>
    rw [List.map_cons] at h
    by_cases hy : y.key = k
    · rw [hy, List.count_cons_self] at h
      exact absurd h (Nat.succ_ne_zero _)
    · rw [List.count_cons_of_ne (fun hh => hy hh.symm)] at h
      simp [lfuBucketRemove, hy, ih h]

theorem lfuBucketRemove_perm {k : K} {b : List (LfuItem K V)} {it : LfuItem K V}
    (hin : it ∈ b) (hk : it.key = k) (hcount : List.count k (b.map LfuItem.key) = 1) :
    List.Perm b (it :: lfuBucketRemove k b) := by
  induction b with
  | nil => cases hin
  | cons y tl ih =>
    by_cases hy : y.key = k
    · have htl : List.count k (tl.map LfuItem.key) = 0 := by
        simp only [List.map_cons, hy, List.count_cons_self] at hcount
        omega
      have hyit : it = y := by
        rcases List.mem_cons.mp hin with rfl | hintl
        · rfl
        · have h1 : k ∈ tl.map LfuItem.key := hk ▸ List.mem_map_of_mem LfuItem.key hintl
          have := List.count_pos_iff.mpr h1
          omega
      subst hyit
      simp only [lfuBucketRemove, if_pos hy, lfuBucketRemove_of_count_zero htl]
      exact List.Perm.refl _
    · have hintl : it ∈ tl := by
        rcases List.mem_cons.mp hin with rfl | hintl
        · exact absurd hk hy
        · exact hintl
      have htl : List.count k (tl.map LfuItem.key) = 1 := by
        rw [List.map_cons, List.count_cons_of_ne (fun h => hy h.symm)] at hcount
        exact hcount
      simp only [lfuBucketRemove, if_neg hy]
      exact ((ih hintl htl).cons y).trans (List.Perm.swap it y _)

/-- Pushing a node to the front of the bucket at its frequency, as done by
incrementFreq and by the new-key insertion of set: the items gain exactly
that node, bucket freqs stay well formed and distinct. -/
theorem lfuPushFront_spec (g : Nat) (x : LfuItem K V) {fl2 : List (Nat × List (LfuItem K V))}
    (hfst2 : (fl2.map Prod.fst).Nodup)
    (ha2 : ∀ p ∈ fl2, ∀ y ∈ p.2, y.freq = p.1)
    (hxg : x.freq = g) :
    List.Perm (lfuItems (assocPut g (x :: (assocGet g fl2).getD []) fl2))
      (x :: lfuItems fl2) ∧
    (∀ p ∈ assocPut g (x :: (assocGet g fl2).getD []) fl2, ∀ y ∈ p.2, y.freq = p.1) ∧
    ((assocPut g (x :: (assocGet g fl2).getD []) fl2).map Prod.fst).Nodup := by
  cases hg : assocGet g fl2 with
  | none =>
    simp only [Option.getD_none]
    rw [assocPut_of_none _ hg, lfuItems_append]
    have hitems1 : lfuItems [(g, [x])] = [x] := by simp [lfuItems]
    rw [hitems1]
    refine ⟨List.perm_append_singleton _ _, ?_, ?_⟩
    · intro p hp y hy
      rcases List.mem_append.mp hp with hp | hp
      · exact ha2 p hp y hy
      · rcases List.mem_cons.mp hp with rfl | hp
        · rcases List.mem_cons.mp hy with rfl | hy
          · exact hxg
          · cases hy
        · cases hp
    · rw [List.map_append, List.nodup_append]
      refine ⟨hfst2, by simp, ?_⟩
      intro a hamem
      obtain ⟨q, hq, rfl⟩ := List.mem_map.mp hamem
      have hqg := (assocGet_eq_none_iff g fl2).mp hg q hq
      simp only [List.map_cons, List.map_nil]
      intro hcon
      rcases List.mem_cons.mp hcon with heq | hcon
      · exact hqg heq
      · cases hcon
  | some nb =>
    obtain ⟨pre2, post2, hfl2eq, hpre2, hpost2, hput2, herase2⟩ := assocGet_decomp hfst2 hg
    simp only [Option.getD_some]
    rw [hput2 (x :: nb)]
    have hitemsA : lfuItems (pre2 ++ (g, x :: nb) :: post2) =
        lfuItems pre2 ++ (x :: (nb ++ lfuItems post2)) := by
      rw [lfuItems_append, lfuItems_cons]
      rfl
    have hitemsB : lfuItems fl2 = lfuItems pre2 ++ (nb ++ lfuItems post2) := by
      rw [hfl2eq, lfuItems_append, lfuItems_cons]
    refine ⟨?_, ?_, ?_⟩
    · rw [hitemsA, hitemsB]
      exact List.perm_middle
    · intro p hp y hy
      rcases List.mem_append.mp hp with hp | hp
      · have hmemp : p ∈ fl2 := by
          rw [hfl2eq]
          exact List.mem_append_left _ hp
        exact ha2 p hmemp y hy
      · rcases List.mem_cons.mp hp with rfl | hp
        · rcases List.mem_cons.mp hy with rfl | hy
          · exact hxg
          · have hmemnb : (g, nb) ∈ fl2 := by
              rw [hfl2eq]
              exact List.mem_append_right _ (List.mem_cons_self _ _)
            exact ha2 (g, nb) hmemnb y hy
        · have hmemp : p ∈ fl2 := by
            rw [hfl2eq]
            exact List.mem_append_right _ (List.mem_cons_of_mem _ hp)
          exact ha2 p hmemp y hy
    · have heq : (pre2 ++ (g, x :: nb) :: post2).map Prod.fst = fl2.map Prod.fst := by
        rw [hfl2eq]
        simp
      rw [heq]
      exact hfst2

theorem lfuIncrementFreq_spec (k : K) (s : LFUCache K V) (it : LfuItem K V)
    (ha : ∀ p ∈ s.freqLists, ∀ x ∈ p.2, x.freq = p.1)
    (hkeys : ((lfuItems s.freqLists).map LfuItem.key).Nodup)
    (hfst : (s.freqLists.map Prod.fst).Nodup)
    (hfind : lfuFindItem k s.freqLists = some it) :
    (LFUCache.incrementFreq k s).size = s.size ∧
    List.Perm ((lfuItems (LFUCache.incrementFreq k s).freqLists).map LfuItem.key)
      ((lfuItems s.freqLists).map LfuItem.key) ∧
    (∀ p ∈ (LFUCache.incrementFreq k s).freqLists, ∀ x ∈ p.2, x.freq = p.1) ∧
    ((LFUCache.incrementFreq k s).freqLists.map Prod.fst).Nodup ∧
    (((assocGet s.minFreq s.freqLists).getD []).isEmpty = false →
      ((assocGet (LFUCache.incrementFreq k s).minFreq
        (LFUCache.incrementFreq k s).freqLists).getD []).isEmpty = false) ∧
    ({ it with freq := it.freq + 1 } ∈ lfuItems (LFUCache.incrementFreq k s).freqLists) ∧
    (∀ y ∈ lfuItems s.freqLists, y.key ≠ k →
      y ∈ lfuItems (LFUCache.incrementFreq k s).freqLists) := by
  have hkm := lfuFindItem_mem hfind
  obtain ⟨f, b, hmem, hin⟩ := lfuFindItem_locate hfind
  have hf : it.freq = f := ha (f, b) hmem it hin
  have hget : assocGet it.freq s.freqLists = some b := by
    rw [hf]
    exact assocGet_of_mem hfst hmem
  obtain ⟨pre, post, hfl, hpre, hpost, hput, herase⟩ := assocGet_decomp hfst hget
  have hitems : lfuItems s.freqLists = lfuItems pre ++ (b ++ lfuItems post) := by
    rw [hfl, lfuItems_append, lfuItems_cons]
  have hkmem : k ∈ b.map LfuItem.key := hkm.2 ▸ List.mem_map_of_mem LfuItem.key hin
  have hkb : 1 ≤ List.count k (b.map LfuItem.key) := List.count_pos_iff.mpr hkmem
  have htot : List.count k ((lfuItems s.freqLists).map LfuItem.key) ≤ 1 :=
    List.nodup_iff_count_le_one.mp hkeys k
  have hsplit : List.count k ((lfuItems pre).map LfuItem.key) = 0 ∧
      List.count k (b.map LfuItem.key) = 1 ∧
      List.count k ((lfuItems post).map LfuItem.key) = 0 := by
    rw [hitems] at htot
    simp only [List.map_append, List.count_append] at htot
    omega
  have hbperm : List.Perm b (it :: lfuBucketRemove k b) :=
    lfuBucketRemove_perm hin hkm.2 hsplit.2.1
  by_cases hc : it.freq = s.minFreq ∧ (lfuBucketRemove k b).isEmpty
  · -- old bucket was the minimum and empties: dropped, minFreq advanced
    have hb1nil : lfuBucketRemove k b = [] := List.isEmpty_iff.mp hc.2
    have hstate : LFUCache.incrementFreq k s = { s with
        minFreq := it.freq + 1,
        freqLists := assocPut (it.freq + 1) ({ it with freq := it.freq + 1 } ::
          (assocGet (it.freq + 1) (pre ++ post)).getD []) (pre ++ post) } := by
      simp only [LFUCache.incrementFreq, hfind, hget, Option.getD_some,
        hput (lfuBucketRemove k b), if_pos hc, assocErase_append_middle hpre hpost]
    have hfst2 : ((pre ++ post).map Prod.fst).Nodup := by
      refine hfst.sublist ?_
      rw [hfl]
      simp only [List.map_append, List.map_cons]
      exact (List.Sublist.refl _).append ((List.sublist_cons_self _ _).trans
        (List.Sublist.refl _))
    have ha2 : ∀ p ∈ pre ++ post, ∀ y ∈ p.2, y.freq = p.1 := by
      intro p hp
      refine ha p ?_
      rw [hfl]
      rcases List.mem_append.mp hp with hp | hp
      · exact List.mem_append_left _ hp
      · exact List.mem_append_right _ (List.mem_cons_of_mem _ hp)
    obtain ⟨hperm3, ha3, hfst3⟩ := lfuPushFront_spec (it.freq + 1)
      { it with freq := it.freq + 1 } hfst2 ha2 rfl
    have hbone : b = [it] := by
      have hlen := lfuBucketRemove_length k b
      rw [hb1nil, hsplit.2.1] at hlen
      simp only [List.length_nil] at hlen
      obtain ⟨a, hba⟩ := List.length_eq_one.mp hlen.symm
      rw [hba] at hin
      rcases List.mem_cons.mp hin with rfl | hcon
      · exact hba
      · cases hcon
    have hitems2 : List.Perm (lfuItems s.freqLists) (it :: (lfuItems pre ++ lfuItems post)) := by
      rw [hitems, hbone]
      exact List.perm_middle
    refine ⟨by rw [hstate], ?_, ?_, ?_, ?_, ?_, ?_⟩
    · rw [hstate]
      have h1 := hperm3.map LfuItem.key
      have h2 := (hitems2.map LfuItem.key).symm
      refine h1.trans (List.Perm.trans ?_ h2)
      rw [lfuItems_append]
      exact List.Perm.refl _
    · rw [hstate]
      exact ha3
    · rw [hstate]
      exact hfst3
    · intro hold
      rw [hstate]
      simp only [assocGet_put_self]
      rfl
    · rw [hstate]
      exact hperm3.mem_iff.mpr (List.mem_cons_self _ _)
    · rw [hstate]
      intro y hy hyk
      have hy2 := hitems2.mem_iff.mp hy
      rcases List.mem_cons.mp hy2 with rfl | hy2
      · exact absurd hkm.2 hyk
      · refine hperm3.mem_iff.mpr (List.mem_cons_of_mem _ ?_)
        rw [lfuItems_append]
        exact hy2
  · -- the old bucket survives (or was not the minimum): minFreq kept
    have hstate : LFUCache.incrementFreq k s = { s with
        minFreq := s.minFreq,
        freqLists := assocPut (it.freq + 1) ({ it with freq := it.freq + 1 } ::
          (assocGet (it.freq + 1) (pre ++ (it.freq, lfuBucketRemove k b) :: post)).getD [])
          (pre ++ (it.freq, lfuBucketRemove k b) :: post) } := by
      simp only [LFUCache.incrementFreq, hfind, hget, Option.getD_some,
        hput (lfuBucketRemove k b), if_neg hc]
    have hfst2 : ((pre ++ (it.freq, lfuBucketRemove k b) :: post).map Prod.fst).Nodup := by
      have heq : (pre ++ (it.freq, lfuBucketRemove k b) :: post).map Prod.fst =
          s.freqLists.map Prod.fst := by
        rw [hfl]
        simp
      rw [heq]
      exact hfst
    have ha2 : ∀ p ∈ pre ++ (it.freq, lfuBucketRemove k b) :: post,
        ∀ y ∈ p.2, y.freq = p.1 := by
      intro p hp
      rcases List.mem_append.mp hp with hp | hp
      · refine ha p ?_
        rw [hfl]
        exact List.mem_append_left _ hp
      · rcases List.mem_cons.mp hp with rfl | hp
        · intro y hy
          have hyb : y ∈ b := (lfuBucketRemove_sublist k b).subset hy
          exact (ha (f, b) hmem y hyb).trans hf.symm
        · refine ha p ?_
          rw [hfl]
          exact List.mem_append_right _ (List.mem_cons_of_mem _ hp)
    obtain ⟨hperm3, ha3, hfst3⟩ := lfuPushFront_spec (it.freq + 1)
      { it with freq := it.freq + 1 } hfst2 ha2 rfl
    have hitemsmid : lfuItems (pre ++ (it.freq, lfuBucketRemove k b) :: post) =
        lfuItems pre ++ (lfuBucketRemove k b ++ lfuItems post) := by
      rw [lfuItems_append, lfuItems_cons]
    have hitems2 : List.Perm (lfuItems s.freqLists)
        (it :: lfuItems (pre ++ (it.freq, lfuBucketRemove k b) :: post)) := by
      rw [hitems, hitemsmid]
      refine ((hbperm.append_right _).append_left _).trans ?_
      exact List.perm_middle
    refine ⟨by rw [hstate], ?_, ?_, ?_, ?_, ?_, ?_⟩
    · rw [hstate]
      have h1 := hperm3.map LfuItem.key
      exact h1.trans (hitems2.map LfuItem.key).symm
    · rw [hstate]
      exact ha3
    · rw [hstate]
      exact hfst3
    · intro hold
      rw [hstate]
      by_cases hmf1 : s.minFreq = it.freq + 1
      · rw [hmf1]
        simp only [assocGet_put_self]
        rfl
      · rw [assocGet_put_other (fun h => hmf1 h.symm)]
        by_cases hmf0 : it.freq = s.minFreq
        · have hbne : (lfuBucketRemove k b).isEmpty = false := by
            cases hisb : (lfuBucketRemove k b).isEmpty
            · rfl
            · exact absurd ⟨hmf0, hisb⟩ hc
          rw [← hmf0, ← hput (lfuBucketRemove k b), assocGet_put_self]
          simpa using hbne
        · rw [show assocGet s.minFreq (pre ++ (it.freq, lfuBucketRemove k b) :: post) =
              assocGet s.minFreq s.freqLists from ?_]
          · exact hold
          · rw [← hput (lfuBucketRemove k b)]
            exact assocGet_put_other hmf0 _ _
    · rw [hstate]
      exact hperm3.mem_iff.mpr (List.mem_cons_self _ _)
    · rw [hstate]
      intro y hy hyk
      have hy2 := hitems2.mem_iff.mp hy
      rcases List.mem_cons.mp hy2 with rfl | hy2
      · exact absurd hkm.2 hyk
      · exact hperm3.mem_iff.mpr (List.mem_cons_of_mem _ hy2)

theorem getLast?_mem_list {α : Type} {l : List α} {a : α} (h : l.getLast? = some a) :
    a ∈ l := by
  obtain ⟨hne, heq⟩ := List.mem_getLast?_eq_getLast (Option.mem_def.mpr h)
  rw [heq]
  exact List.getLast_mem hne

/-- At capacity the eviction of lfu_cache.go finds the cached minFreq
bucket non-empty (no recomputation is needed) and removes exactly its back
node. -/
theorem lfuEvict_spec (s : LFUCache K V) (hInv : LFUInv s)
    (hcap : s.size ≤ lfuLen s.freqLists) (hpos : 0 < s.size) :
    ∃ b last, assocGet s.minFreq s.freqLists = some b ∧ b.isEmpty = false ∧
      b.getLast? = some last ∧ last ∈ lfuItems s.freqLists ∧
      lfuFindItem last.key s.freqLists = some last ∧
      LFUCache.evict 1 s = LFUCache.deleteKey last.key s := by
  obtain ⟨ha, hkeys, hfst, hlen, hc⟩ := hInv
  have hlenpos : 0 < lfuLen s.freqLists := by omega
  have hbne : ((assocGet s.minFreq s.freqLists).getD []).isEmpty = false := by
    rcases hc with h | h | h
    · omega
    · omega
    · exact h
  cases hgetmf : assocGet s.minFreq s.freqLists with
  | none =>
    rw [hgetmf] at hbne
    simp at hbne
  | some b =>
    rw [hgetmf] at hbne
    simp only [Option.getD_some] at hbne
    have hbnil : b ≠ [] := by
      intro h
      rw [h] at hbne
      simp at hbne
    obtain ⟨last, hlast⟩ : ∃ a, b.getLast? = some a := by
      cases hg : b.getLast? with
      | some a => exact ⟨a, rfl⟩
      | none => exact absurd (List.getLast?_eq_none_iff.mp hg) hbnil
    have hlmem : last ∈ lfuItems s.freqLists :=
      lfu_mem_items_of_mem_bucket (assocGet_mem hgetmf) (getLast?_mem_list hlast)
    have hlfind : lfuFindItem last.key s.freqLists = some last :=
      lfuFindItem_of_mem hkeys hlmem
    refine ⟨b, last, rfl, hbne, hlast, hlmem, hlfind, ?_⟩
    show LFUCache.evict 1 s = LFUCache.deleteKey last.key s
    rw [LFUCache.evict]
    rw [if_neg (by omega)]
    simp only [LFUCache.evictStep, hgetmf, Option.getD_some, hbne, Bool.false_eq_true,
      if_false, hlast]
    rw [LFUCache.evict]
    simp

/-- Inserting a fresh key at frequency 1 (the tail of the new-key branch
of set) preserves the invariant as long as one slot is free. -/
theorem lfuInsertNew_inv (k : K) (v : V) (e0 : Int) (s1 : LFUCache K V)
    (ha1 : ∀ p ∈ s1.freqLists, ∀ x ∈ p.2, x.freq = p.1)
    (hkeys1 : ((lfuItems s1.freqLists).map LfuItem.key).Nodup)
    (hfst1 : (s1.freqLists.map Prod.fst).Nodup)
    (hroom : lfuLen s1.freqLists < s1.size)
    (hknot : ∀ x ∈ lfuItems s1.freqLists, x.key ≠ k) :
    LFUInv { s1 with
      minFreq := 1,
      freqLists := assocPut 1 ((⟨k, v, 1, e0⟩ : LfuItem K V) ::
        (assocGet 1 s1.freqLists).getD []) s1.freqLists } := by
  obtain ⟨hperm, ha2, hfst2⟩ :=
    lfuPushFront_spec 1 (⟨k, v, 1, e0⟩ : LfuItem K V) hfst1 ha1 rfl
  have hkeysperm : List.Perm ((lfuItems (assocPut 1 ((⟨k, v, 1, e0⟩ : LfuItem K V) ::
      (assocGet 1 s1.freqLists).getD []) s1.freqLists)).map LfuItem.key)
      (k :: (lfuItems s1.freqLists).map LfuItem.key) := hperm.map LfuItem.key
  have hlen2 : lfuLen (assocPut 1 ((⟨k, v, 1, e0⟩ : LfuItem K V) ::
      (assocGet 1 s1.freqLists).getD []) s1.freqLists) = lfuLen s1.freqLists + 1 := by
    have := hperm.length_eq
    simpa [lfuLen] using this
  refine ⟨ha2, ?_, hfst2, ?_, ?_⟩
  · refine hkeysperm.symm.nodup ?_
    rw [List.nodup_cons]
    refine ⟨?_, hkeys1⟩
    intro hk
    obtain ⟨x, hx, hxk⟩ := List.mem_map.mp hk
    exact hknot x hx hxk
  · simp only
    omega
  · right
    right
    simp only [assocGet_put_self, Option.getD_some, List.isEmpty_cons]

/-- set preserves the LFU invariant. -/
theorem lfuSet_preserves (now : Int) (k : K) (v : V) (e : Int) {s : LFUCache K V}
    (hInv : LFUInv s) : LFUInv (LFUCache.set now k v e s) := by
  obtain ⟨ha, hkeys, hfst, hlen, hc⟩ := hInv
  by_cases hsz : s.size = 0
  · simp only [LFUCache.set, if_pos hsz]
    exact ⟨ha, hkeys, hfst, hlen, hc⟩
  cases hfind : lfuFindItem k s.freqLists with
  | some it =>
    have hstate : LFUCache.set now k v e s = LFUCache.incrementFreq k
        { s with freqLists :=
          lfuUpdateItem k v (if 0 < e then now + e else 0) s.freqLists } := by
      simp only [LFUCache.set, if_neg hsz, hfind, Option.isSome_some, if_true]
    rw [hstate]
    set e0 : Int := if 0 < e then now + e else 0 with he0
    set s1 : LFUCache K V :=
      { s with freqLists := lfuUpdateItem k v e0 s.freqLists } with hs1
    have hitems1 : lfuItems s1.freqLists = (lfuItems s.freqLists).map (fun it2 =>
        if it2.key = k then { it2 with value := v, expireAt := e0 } else it2) :=
      lfuUpdateItem_items k v e0 s.freqLists
    have ha1 : ∀ p ∈ s1.freqLists, ∀ x ∈ p.2, x.freq = p.1 :=
      lfuUpdateItem_freqs k v e0 ha
    have hkeys1eq : (lfuItems s1.freqLists).map LfuItem.key =
        (lfuItems s.freqLists).map LfuItem.key := lfuUpdateItem_keys k v e0 s.freqLists
    have hkeys1 : ((lfuItems s1.freqLists).map LfuItem.key).Nodup := by
      rw [hkeys1eq]
      exact hkeys
    have hfst1 : (s1.freqLists.map Prod.fst).Nodup := by
      show ((lfuUpdateItem k v e0 s.freqLists).map Prod.fst).Nodup
      rw [lfuUpdateItem_fst]
      exact hfst
    have hkm := lfuFindItem_mem hfind
    have hupd : (fun it2 => if it2.key = k then { it2 with value := v, expireAt := e0 }
        else it2) it = { it with value := v, expireAt := e0 } := by
      simp [hkm.2]
    have hmem1 : ({ it with value := v, expireAt := e0 } : LfuItem K V) ∈
        lfuItems s1.freqLists := by
      rw [hitems1, ← hupd]
      exact List.mem_map_of_mem _ hkm.1
    have hfind1 : lfuFindItem k s1.freqLists =
        some { it with value := v, expireAt := e0 } := by
      have := lfuFindItem_of_mem hkeys1 hmem1
      simpa [hkm.2] using this
    obtain ⟨hsz2, hperm2, ha2, hfst2, htrans, hmem2, hkeep2⟩ :=
      lfuIncrementFreq_spec k s1 { it with value := v, expireAt := e0 }
        ha1 hkeys1 hfst1 hfind1
    have hlen2 : lfuLen (LFUCache.incrementFreq k s1).freqLists = lfuLen s.freqLists := by
      have h1 := hperm2.length_eq
      simp only [List.length_map] at h1
      have h2 : (lfuItems s1.freqLists).length = (lfuItems s.freqLists).length := by
        rw [hitems1, List.length_map]
      simpa [lfuLen, h2] using h1
    refine ⟨ha2, ?_, hfst2, ?_, ?_⟩
    · refine hperm2.symm.nodup ?_
      rw [hkeys1eq]
      exact hkeys
    · rw [hlen2, hsz2]
      show lfuLen s.freqLists ≤ s.size
      exact hlen
    · rcases hc with h | h | h
      · left
        rw [hlen2]
        exact h
      · right
        left
        rw [hlen2, hsz2]
        exact h
      · right
        right
        refine htrans ?_
        show ((assocGet s.minFreq (lfuUpdateItem k v e0 s.freqLists)).getD []).isEmpty = false
        rw [lfuUpdateItem_get]
        cases hg : assocGet s.minFreq s.freqLists with
        | none =>
          rw [hg, Option.getD_none, List.isEmpty_nil] at h
          exact Bool.noConfusion h
        | some mb =>
          rw [hg] at h
          simp only [Option.getD_some] at h
          cases mb with
          | nil =>
            rw [List.isEmpty_nil] at h
            exact Bool.noConfusion h
          | cons y tl => simp
  | none =>
    have hpos : 0 < s.size := Nat.pos_of_ne_zero hsz
    by_cases hcap : s.size ≤ lfuLen s.freqLists
    · obtain ⟨b, last, hget, hbne, hlast, hlmem, hlfind, hevict⟩ :=
        lfuEvict_spec s ⟨ha, hkeys, hfst, hlen, hc⟩ hcap hpos
      obtain ⟨hdsz, hdlen, hdsub, hdnotk, hdkeep, hda, hdfst⟩ :=
        lfuDeleteKey_spec last.key s last ha hkeys hfst hlfind
      have hstate : LFUCache.set now k v e s =
          { LFUCache.deleteKey last.key s with
            minFreq := 1,
            freqLists := assocPut 1 ((⟨k, v, 1, if 0 < e then now + e else 0⟩ :
              LfuItem K V) ::
              (assocGet 1 (LFUCache.deleteKey last.key s).freqLists).getD [])
              (LFUCache.deleteKey last.key s).freqLists } := by
        simp only [LFUCache.set, if_neg hsz, hfind, Option.isSome_none, Bool.false_eq_true,
          if_false, if_pos hcap, hevict]
      rw [hstate]
      refine lfuInsertNew_inv k v _ (LFUCache.deleteKey last.key s) hda ?_ hdfst ?_ ?_
      · exact hkeys.sublist (hdsub.map LfuItem.key)
      · rw [hdsz]
        omega
      · intro x hx hxk
        have hxs : x ∈ lfuItems s.freqLists := hdsub.subset hx
        exact (lfuFindItem_eq_none_iff s.freqLists).mp hfind x hxs hxk
    · have hstate : LFUCache.set now k v e s =
          { s with
            minFreq := 1,
            freqLists := assocPut 1 ((⟨k, v, 1, if 0 < e then now + e else 0⟩ :
              LfuItem K V) :: (assocGet 1 s.freqLists).getD []) s.freqLists } := by
        simp only [LFUCache.set, if_neg hsz, hfind, Option.isSome_none, Bool.false_eq_true,
          if_false, if_neg hcap]
      rw [hstate]
      refine lfuInsertNew_inv k v _ s ha hkeys hfst (by omega) ?_
      exact (lfuFindItem_eq_none_iff s.freqLists).mp hfind

theorem lfuDeleteKey_preserves (k : K) {s : LFUCache K V} (hInv : LFUInv s) :
    LFUInv (LFUCache.deleteKey k s) := by
  obtain ⟨ha, hkeys, hfst, hlen, hc⟩ := hInv
  cases hfind : lfuFindItem k s.freqLists with
  | none =>
    simp only [LFUCache.deleteKey, hfind]
    exact ⟨ha, hkeys, hfst, hlen, hc⟩
  | some it =>
    obtain ⟨hdsz, hdlen, hdsub, hdnotk, hdkeep, hda, hdfst⟩ :=
      lfuDeleteKey_spec k s it ha hkeys hfst hfind
    refine ⟨hda, hkeys.sublist (hdsub.map LfuItem.key), hdfst, ?_, ?_⟩
    · rw [hdsz]
      omega
    · right
      left
      rw [hdsz]
      omega

theorem lfuIncrementFreq_preserves (k : K) {s : LFUCache K V} (it : LfuItem K V)
    (hInv : LFUInv s) (hfind : lfuFindItem k s.freqLists = some it) :
    LFUInv (LFUCache.incrementFreq k s) := by
  obtain ⟨ha, hkeys, hfst, hlen, hc⟩ := hInv
  obtain ⟨hsz2, hperm2, ha2, hfst2, htrans, hmem2, hkeep2⟩ :=
    lfuIncrementFreq_spec k s it ha hkeys hfst hfind
  have hlen2 : lfuLen (LFUCache.incrementFreq k s).freqLists = lfuLen s.freqLists := by
    have h1 := hperm2.length_eq
    simpa [lfuLen] using h1
  refine ⟨ha2, hperm2.symm.nodup hkeys, hfst2, ?_, ?_⟩
  · rw [hlen2, hsz2]
    exact hlen
  · rcases hc with h | h | h
    · left
      rw [hlen2]
      exact h
    · right
      left
      rw [hlen2, hsz2]
      exact h
    · right
      right
      exact htrans h

theorem lfuGet_preserves (now : Int) (k : K) {s : LFUCache K V} (hInv : LFUInv s) :
    LFUInv (LFUCache.Get now k s).2 := by
  cases hfind : lfuFindItem k s.freqLists with
  | none =>
    simp only [LFUCache.Get, hfind]
    exact hInv
  | some it =>
    by_cases hexp : isExpiredAt now it.expireAt
    · simp only [LFUCache.Get, hfind, hexp, if_true]
      exact lfuDeleteKey_preserves k hInv
    · simp only [LFUCache.Get, hfind, hexp, Bool.false_eq_true, if_false]
      exact lfuIncrementFreq_preserves k it hInv hfind

theorem lfuNotFoundSet_preserves (now : Int) (k : K) (v : V) (e : Int) {s : LFUCache K V}
    (hInv : LFUInv s) : LFUInv (LFUCache.NotFoundSetWithTimeout now k v e s).2 := by
  cases hfind : lfuFindItem k s.freqLists with
  | none =>
    simp only [LFUCache.NotFoundSetWithTimeout, hfind]
    exact lfuSet_preserves now k v e hInv
  | some it =>
    by_cases hlive : isLiveAt now it.expireAt
    · simp only [LFUCache.NotFoundSetWithTimeout, hfind, hlive, if_true]
      exact hInv
    · simp only [LFUCache.NotFoundSetWithTimeout, hfind, hlive, Bool.false_eq_true, if_false]
      exact lfuSet_preserves now k v e (lfuDeleteKey_preserves k hInv)

/-- C1 (counterexample): the public-operation trace Set 1, Set 2, Get 2,
Get 2, Delete 1 on a capacity-2 LFU store leaves one live entry while
minFreq = 2 names a bucket that exists and is empty — Get 2 orphaned the
emptied non-minimum bucket 2, and Delete 1 recomputed minFreq over all
bucket keys, empty ones included. -/
theorem claim_C1_counterexample :
    lfuLen (LFUCache.Delete 1 ((LFUCache.Get 100 2 ((LFUCache.Get 100 2
        (LFUCache.Set 100 2 20 (LFUCache.Set 100 1 10
          (LFUCache.new Nat Nat 2)))).2)).2)).freqLists = 1 ∧
    (LFUCache.Delete 1 ((LFUCache.Get 100 2 ((LFUCache.Get 100 2
        (LFUCache.Set 100 2 20 (LFUCache.Set 100 1 10
          (LFUCache.new Nat Nat 2)))).2)).2)).minFreq = 2 ∧
    assocGet 2 (LFUCache.Delete 1 ((LFUCache.Get 100 2 ((LFUCache.Get 100 2
        (LFUCache.Set 100 2 20 (LFUCache.Set 100 1 10
          (LFUCache.new Nat Nat 2)))).2)).2)).freqLists = some [] := by
  refine ⟨by decide, by decide, by decide⟩

/-- C1 (amended): every public LFU operation preserves the invariant that
each stored entry lives in the bucket named by its access count, that
bucket frequencies and keys are unique, and that the store never exceeds
its capacity; after a deletion minFreq may name an empty or missing bucket
while the store is non-empty, but that can only happen below capacity, so
whenever an insertion at capacity reaches the internal eviction the
freqLists[minFreq] bucket is present and non-empty. -/
theorem claim_C1_amended (size : Nat) (op : LFUOp K V) (s : LFUCache K V)
    (hInv : LFUInv s) :
    LFUInv (LFUCache.new K V size) ∧
    LFUInv (LFUCache.apply op s) ∧
    (s.size ≤ lfuLen s.freqLists → 0 < s.size →
      ∃ b, assocGet s.minFreq s.freqLists = some b ∧ b.isEmpty = false) := by
  refine ⟨?_, ?_, ?_⟩
  · refine ⟨?_, ?_, ?_, ?_, ?_⟩
    · intro p hp
      cases hp
    · simp [LFUCache.new, lfuItems]
    · simp [LFUCache.new]
    · simp [LFUCache.new, lfuLen, lfuItems]
    · left
      simp [LFUCache.new, lfuLen, lfuItems]
  · cases op with
    | opSet now k v => exact lfuSet_preserves now k v 0 hInv
    | opSetWithTimeout now k v e => exact lfuSet_preserves now k v e hInv
    | opGet now k => exact lfuGet_preserves now k hInv
    | opNotFoundSet now k v =>
      show LFUInv (LFUCache.NotFoundSet now k v s).2
      cases hfind : lfuFindItem k s.freqLists with
      | none =>
        simp only [LFUCache.NotFoundSet, hfind]
        exact lfuSet_preserves now k v 0 hInv
      | some it =>
        by_cases hlive : isLiveAt now it.expireAt
        · simp only [LFUCache.NotFoundSet, hfind, hlive, if_true]
          exact hInv
        · simp only [LFUCache.NotFoundSet, hfind, hlive, Bool.false_eq_true, if_false]
          exact lfuSet_preserves now k v 0 (lfuDeleteKey_preserves k hInv)
    | opNotFoundSetWithTimeout now k v e => exact lfuNotFoundSet_preserves now k v e hInv
    | opDelete k => exact lfuDeleteKey_preserves k hInv
    | opPurge =>
      show LFUInv (LFUCache.Purge s)
      refine ⟨?_, ?_, ?_, ?_, ?_⟩
      · intro p hp
        cases hp
      · simp [LFUCache.Purge, lfuItems]
      · simp [LFUCache.Purge]
      · simp [LFUCache.Purge, lfuLen, lfuItems]
      · left
        simp [LFUCache.Purge, lfuLen, lfuItems]
  · intro hcap hpos
    obtain ⟨ha, hkeys, hfst, hlen, hc⟩ := hInv
    have hbne : ((assocGet s.minFreq s.freqLists).getD []).isEmpty = false := by
      rcases hc with h | h | h
      · omega
      · omega
      · exact h
    cases hg : assocGet s.minFreq s.freqLists with
    | none =>
      rw [hg, Option.getD_none, List.isEmpty_nil] at hbne
      exact Bool.noConfusion hbne
    | some b =>
      rw [hg, Option.getD_some] at hbne
      exact ⟨b, rfl, hbne⟩

/-- C1 (witness): the amended invariant applied to a concrete state that
already carries an orphaned empty bucket (2, []) — the invariant tolerates
it because the store is below capacity — under a Set of a fresh key. -/
theorem claim_C1_witness :
    LFUInv (⟨2, 2, [(2, []), (3, [⟨2, 20, 3, 0⟩])]⟩ : LFUCache Nat Nat) ∧
    LFUInv (LFUCache.apply (LFUOp.opSet 100 5 50)
      (⟨2, 2, [(2, []), (3, [⟨2, 20, 3, 0⟩])]⟩ : LFUCache Nat Nat)) :=
  ⟨by decide,
    (claim_C1_amended 2 (LFUOp.opSet 100 5 50)
      (⟨2, 2, [(2, []), (3, [⟨2, 20, 3, 0⟩])]⟩ : LFUCache Nat Nat) (by decide)).2.1⟩

/-- C7 (confirmed): a Set with a new key on an LFU store at capacity
evicts exactly the back node of the (non-empty, not recomputed) minFreq
bucket — the globally lowest frequency, oldest within its bucket — and
then installs the new entry at frequency 1 at the front of bucket 1 with
minFreq set to 1, keeping every other entry; the capacity-3 scenario
a,b,c / Get(a) twice, Get(b) once / insert d evicts c and leaves
exactly a, b, d stored. -/
theorem claim_C7_lfuEviction (now : Int) (k : K) (v : V) (s : LFUCache K V)
    (hInv : LFUInv s) (hcap : lfuLen s.freqLists = s.size) (hpos : 0 < s.size)
    (hnew : lfuFindItem k s.freqLists = none) :
    (∃ b last, assocGet s.minFreq s.freqLists = some b ∧ b.isEmpty = false ∧
      b.getLast? = some last ∧
      (LFUCache.Set now k v s).minFreq = 1 ∧
      assocGet 1 (LFUCache.Set now k v s).freqLists =
        some ((⟨k, v, 1, 0⟩ : LfuItem K V) ::
          (assocGet 1 (LFUCache.deleteKey last.key s).freqLists).getD []) ∧
      (∀ x ∈ lfuItems (LFUCache.Set now k v s).freqLists, x.key ≠ last.key) ∧
      (∀ x ∈ lfuItems s.freqLists, x.key ≠ last.key →
        x ∈ lfuItems (LFUCache.Set now k v s).freqLists) ∧
      lfuLen (LFUCache.Set now k v s).freqLists = s.size) ∧
    (lfuFindItem 3 (LFUCache.Set 100 4 40 ((LFUCache.Get 100 2 ((LFUCache.Get 100 1
      ((LFUCache.Get 100 1 (LFUCache.Set 100 3 30 (LFUCache.Set 100 2 20
        (LFUCache.Set 100 1 10 (LFUCache.new Nat Nat 3))))).2)).2)).2)).freqLists = none ∧
     (lfuItems (LFUCache.Set 100 4 40 ((LFUCache.Get 100 2 ((LFUCache.Get 100 1
      ((LFUCache.Get 100 1 (LFUCache.Set 100 3 30 (LFUCache.Set 100 2 20
        (LFUCache.Set 100 1 10 (LFUCache.new Nat Nat 3))))).2)).2)).2)).freqLists).map
          (fun it => it.key) = [2, 1, 4] ∧
     (LFUCache.Set 100 4 40 ((LFUCache.Get 100 2 ((LFUCache.Get 100 1
      ((LFUCache.Get 100 1 (LFUCache.Set 100 3 30 (LFUCache.Set 100 2 20
        (LFUCache.Set 100 1 10 (LFUCache.new Nat Nat 3))))).2)).2)).2)).freqLists =
          [(2, [⟨2, 20, 2, 0⟩]), (3, [⟨1, 10, 3, 0⟩]), (1, [⟨4, 40, 1, 0⟩])]) := by
  refine ⟨?_, by decide, by decide, by decide⟩
  obtain ⟨ha, hkeys, hfst, hlen, hc⟩ := hInv
  have hcap2 : s.size ≤ lfuLen s.freqLists := le_of_eq hcap.symm
  obtain ⟨b, last, hget, hbne, hlast, hlmem, hlfind, hevict⟩ :=
    lfuEvict_spec s ⟨ha, hkeys, hfst, hlen, hc⟩ hcap2 hpos
  obtain ⟨hdsz, hdlen, hdsub, hdnotk, hdkeep, hda, hdfst⟩ :=
    lfuDeleteKey_spec last.key s last ha hkeys hfst hlfind
  have hsz : ¬ s.size = 0 := by omega
  have hstate : LFUCache.Set now k v s =
      { LFUCache.deleteKey last.key s with
        minFreq := 1,
        freqLists := assocPut 1 ((⟨k, v, 1, 0⟩ : LfuItem K V) ::
          (assocGet 1 (LFUCache.deleteKey last.key s).freqLists).getD [])
          (LFUCache.deleteKey last.key s).freqLists } := by
    show LFUCache.set now k v 0 s = _
    simp only [LFUCache.set, if_neg hsz, hnew, Option.isSome_none, Bool.false_eq_true,
      if_false, if_pos hcap2, hevict]
    norm_num
  obtain ⟨hperm, ha2, hfst2⟩ := lfuPushFront_spec 1 (⟨k, v, 1, 0⟩ : LfuItem K V)
    hdfst hda rfl
  have hlastk : last.key ≠ k := by
    intro hlk
    exact (lfuFindItem_eq_none_iff s.freqLists).mp hnew last hlmem hlk
  refine ⟨b, last, hget, hbne, hlast, ?_, ?_, ?_, ?_, ?_⟩
  · rw [hstate]
  · rw [hstate]
    exact assocGet_put_self _ _ _
  · rw [hstate]
    intro x hx
    have hx2 : x ∈ (⟨k, v, 1, 0⟩ : LfuItem K V) ::
        lfuItems (LFUCache.deleteKey last.key s).freqLists := hperm.mem_iff.mp hx
    rcases List.mem_cons.mp hx2 with rfl | hx2
    · exact fun h => hlastk h.symm
    · exact hdnotk x hx2
  · rw [hstate]
    intro x hx hxl
    exact hperm.mem_iff.mpr (List.mem_cons_of_mem _ (hdkeep x hx hxl))
  · rw [hstate]
    have h1 := hperm.length_eq
    simp only [List.length_cons] at h1
    have e1 : lfuLen (LFUCache.deleteKey last.key s).freqLists =
        (lfuItems (LFUCache.deleteKey last.key s).freqLists).length := rfl
    rw [e1] at hdlen
    show lfuLen _ = s.size
    rw [lfuLen, h1]
    omega

/-- C7 (witness): the eviction statement applied to a concrete capacity-2
store at capacity whose minFreq bucket holds two frequency-1 entries. -/
theorem claim_C7_witness :
    (LFUInv (⟨2, 1, [(1, [⟨1, 10, 1, 0⟩, ⟨2, 20, 1, 0⟩])]⟩ : LFUCache Nat Nat) ∧
      lfuLen (⟨2, 1, [(1, [⟨1, 10, 1, 0⟩, ⟨2, 20, 1, 0⟩])]⟩ :
        LFUCache Nat Nat).freqLists = 2 ∧
      lfuFindItem 9 (⟨2, 1, [(1, [⟨1, 10, 1, 0⟩, ⟨2, 20, 1, 0⟩])]⟩ :
        LFUCache Nat Nat).freqLists = none) ∧
    (∃ b last, assocGet (⟨2, 1, [(1, [⟨1, 10, 1, 0⟩, ⟨2, 20, 1, 0⟩])]⟩ :
        LFUCache Nat Nat).minFreq (⟨2, 1, [(1, [⟨1, 10, 1, 0⟩, ⟨2, 20, 1, 0⟩])]⟩ :
        LFUCache Nat Nat).freqLists = some b ∧ b.isEmpty = false ∧
      b.getLast? = some last ∧
      (LFUCache.Set 100 9 90 (⟨2, 1, [(1, [⟨1, 10, 1, 0⟩, ⟨2, 20, 1, 0⟩])]⟩ :
        LFUCache Nat Nat)).minFreq = 1 ∧
      assocGet 1 (LFUCache.Set 100 9 90 (⟨2, 1, [(1, [⟨1, 10, 1, 0⟩, ⟨2, 20, 1, 0⟩])]⟩ :
        LFUCache Nat Nat)).freqLists =
        some ((⟨9, 90, 1, 0⟩ : LfuItem Nat Nat) ::
          (assocGet 1 (LFUCache.deleteKey last.key
            (⟨2, 1, [(1, [⟨1, 10, 1, 0⟩, ⟨2, 20, 1, 0⟩])]⟩ :
              LFUCache Nat Nat)).freqLists).getD []) ∧
      (∀ x ∈ lfuItems (LFUCache.Set 100 9 90
        (⟨2, 1, [(1, [⟨1, 10, 1, 0⟩, ⟨2, 20, 1, 0⟩])]⟩ :
          LFUCache Nat Nat)).freqLists, x.key ≠ last.key) ∧
      (∀ x ∈ lfuItems (⟨2, 1, [(1, [⟨1, 10, 1, 0⟩, ⟨2, 20, 1, 0⟩])]⟩ :
        LFUCache Nat Nat).freqLists, x.key ≠ last.key →
        x ∈ lfuItems (LFUCache.Set 100 9 90
          (⟨2, 1, [(1, [⟨1, 10, 1, 0⟩, ⟨2, 20, 1, 0⟩])]⟩ :
            LFUCache Nat Nat)).freqLists) ∧
      lfuLen (LFUCache.Set 100 9 90 (⟨2, 1, [(1, [⟨1, 10, 1, 0⟩, ⟨2, 20, 1, 0⟩])]⟩ :
        LFUCache Nat Nat)).freqLists =
        (⟨2, 1, [(1, [⟨1, 10, 1, 0⟩, ⟨2, 20, 1, 0⟩])]⟩ : LFUCache Nat Nat).size) :=
  ⟨⟨by decide, by decide, by decide⟩,
    (claim_C7_lfuEviction 100 9 90
      (⟨2, 1, [(1, [⟨1, 10, 1, 0⟩, ⟨2, 20, 1, 0⟩])]⟩ : LFUCache Nat Nat)
      (by decide) (by decide) (by decide) (by decide)).1⟩

/-- With free room, the LFU set with no timeout keeps the capacity and the
invariant, grows the store by at most one, leaves the lookup of every
other key untouched, and makes the set key find an item carrying the new
value and no expiry. -/
theorem lfuSetRoom_step (now : Int) (k : K) (v : V) {d : LFUCache K V}
    (hInv : LFUInv d) (hroom : lfuLen d.freqLists < d.size) :
    LFUInv (LFUCache.set now k v 0 d) ∧
    (LFUCache.set now k v 0 d).size = d.size ∧
    lfuLen (LFUCache.set now k v 0 d).freqLists ≤ lfuLen d.freqLists + 1 ∧
    (∀ j, j ≠ k → lfuFindItem j (LFUCache.set now k v 0 d).freqLists =
      lfuFindItem j d.freqLists) ∧
    (∃ jt, lfuFindItem k (LFUCache.set now k v 0 d).freqLists = some jt ∧
      jt.value = v ∧ jt.expireAt = 0) := by
  obtain ⟨ha, hkeys, hfst, hlen, hc⟩ := hInv
  have hInv2 := lfuSet_preserves now k v 0 ⟨ha, hkeys, hfst, hlen, hc⟩
  have hsz : ¬ d.size = 0 := by omega
  cases hfind : lfuFindItem k d.freqLists with
  | some it =>
    have hstate : LFUCache.set now k v 0 d = LFUCache.incrementFreq k
        { d with freqLists := lfuUpdateItem k v 0 d.freqLists } := by
      simp only [LFUCache.set, if_neg hsz, hfind, Option.isSome_some, if_true]
      norm_num
    set s1 : LFUCache K V := { d with freqLists := lfuUpdateItem k v 0 d.freqLists } with hs1
    have hitems1 : lfuItems s1.freqLists = (lfuItems d.freqLists).map (fun it2 =>
        if it2.key = k then { it2 with value := v, expireAt := (0 : Int) } else it2) :=
      lfuUpdateItem_items k v 0 d.freqLists
    have ha1 : ∀ p ∈ s1.freqLists, ∀ x ∈ p.2, x.freq = p.1 :=
      lfuUpdateItem_freqs k v 0 ha
    have hkeys1eq : (lfuItems s1.freqLists).map LfuItem.key =
        (lfuItems d.freqLists).map LfuItem.key := lfuUpdateItem_keys k v 0 d.freqLists
    have hkeys1 : ((lfuItems s1.freqLists).map LfuItem.key).Nodup := by
      rw [hkeys1eq]
      exact hkeys
    have hfst1 : (s1.freqLists.map Prod.fst).Nodup := by
      show ((lfuUpdateItem k v 0 d.freqLists).map Prod.fst).Nodup
      rw [lfuUpdateItem_fst]
      exact hfst
    have hkm := lfuFindItem_mem hfind
    have hupd : (fun it2 => if it2.key = k then { it2 with value := v, expireAt := (0 : Int) }
        else it2) it = { it with value := v, expireAt := (0 : Int) } := by
      simp [hkm.2]
    have hmem1 : ({ it with value := v, expireAt := (0 : Int) } : LfuItem K V) ∈
        lfuItems s1.freqLists := by
      rw [hitems1, ← hupd]
      exact List.mem_map_of_mem _ hkm.1
    have hfind1 : lfuFindItem k s1.freqLists =
        some { it with value := v, expireAt := (0 : Int) } := by
      have := lfuFindItem_of_mem hkeys1 hmem1
      simpa [hkm.2] using this
    obtain ⟨hsz2, hperm2, ha2, hfst2, htrans, hmem2, hkeep2⟩ :=
      lfuIncrementFreq_spec k s1 { it with value := v, expireAt := (0 : Int) }
        ha1 hkeys1 hfst1 hfind1
    have hkeys2 : ((lfuItems (LFUCache.incrementFreq k s1).freqLists).map
        LfuItem.key).Nodup := by
      refine hperm2.symm.nodup ?_
      rw [hkeys1eq]
      exact hkeys
    have hlen2 : lfuLen (LFUCache.incrementFreq k s1).freqLists = lfuLen d.freqLists := by
      have h1 := hperm2.length_eq
      simp only [List.length_map] at h1
      have h2 : (lfuItems s1.freqLists).length = (lfuItems d.freqLists).length := by
        rw [hitems1, List.length_map]
      simpa [lfuLen, h2] using h1
    refine ⟨hInv2, ?_, ?_, ?_, ?_⟩
    · rw [hstate, hsz2, hs1]
    · rw [hstate, hlen2]
      omega
    · intro j hjk
      rw [hstate]
      cases hjf : lfuFindItem j d.freqLists with
      | some y =>
        have hym := lfuFindItem_mem hjf
        have hyk : y.key ≠ k := by
          rw [hym.2]
          exact hjk
        have hy1 : y ∈ lfuItems s1.freqLists := by
          have hid : (fun it2 => if it2.key = k then
              { it2 with value := v, expireAt := (0 : Int) } else it2) y = y := by
            simp [hyk]
          rw [hitems1, ← hid]
          exact List.mem_map_of_mem _ hym.1
        have hy2 : y ∈ lfuItems (LFUCache.incrementFreq k s1).freqLists :=
          hkeep2 y hy1 hyk
        have hfy := lfuFindItem_of_mem hkeys2 hy2
        rw [hym.2] at hfy
        exact hfy
      | none =>
        rw [lfuFindItem_eq_none_iff]
        intro x hx hxj
        have hxk : x.key ∈ (lfuItems (LFUCache.incrementFreq k s1).freqLists).map
            LfuItem.key := List.mem_map_of_mem _ hx
        have hxk2 : x.key ∈ (lfuItems d.freqLists).map LfuItem.key := by
          rw [← hkeys1eq]
          exact hperm2.mem_iff.mp hxk
        obtain ⟨z, hz, hzk⟩ := List.mem_map.mp hxk2
        exact (lfuFindItem_eq_none_iff d.freqLists).mp hjf z hz (by rw [hzk, hxj])
    · have hfd : lfuFindItem it.key (LFUCache.incrementFreq k s1).freqLists =
          some { it with value := v, freq := it.freq + 1, expireAt := (0 : Int) } :=
        lfuFindItem_of_mem hkeys2 hmem2
      nth_rewrite 1 [hkm.2] at hfd
      refine ⟨{ it with value := v, freq := it.freq + 1, expireAt := (0 : Int) }, ?_, rfl, rfl⟩
      rw [hstate]
      exact hfd
  | none =>
    have hno : ¬ d.size ≤ lfuLen d.freqLists := by omega
    have hstate : LFUCache.set now k v 0 d =
        { d with
          minFreq := 1,
          freqLists := assocPut 1 ((⟨k, v, 1, 0⟩ : LfuItem K V) ::
            (assocGet 1 d.freqLists).getD []) d.freqLists } := by
      simp only [LFUCache.set, if_neg hsz, hfind, Option.isSome_none, Bool.false_eq_true,
        if_false, if_neg hno]
      norm_num
    obtain ⟨hperm, ha2, hfst2⟩ := lfuPushFront_spec 1 (⟨k, v, 1, 0⟩ : LfuItem K V) hfst ha rfl
    have hknot : ∀ x ∈ lfuItems d.freqLists, x.key ≠ k :=
      (lfuFindItem_eq_none_iff d.freqLists).mp hfind
    have hkeysperm : List.Perm ((lfuItems (assocPut 1 ((⟨k, v, 1, 0⟩ : LfuItem K V) ::
        (assocGet 1 d.freqLists).getD []) d.freqLists)).map LfuItem.key)
        (k :: (lfuItems d.freqLists).map LfuItem.key) := hperm.map LfuItem.key
    have hkeys2 : ((lfuItems (assocPut 1 ((⟨k, v, 1, 0⟩ : LfuItem K V) ::
        (assocGet 1 d.freqLists).getD []) d.freqLists)).map LfuItem.key).Nodup := by
      refine hkeysperm.symm.nodup ?_
      rw [List.nodup_cons]
      refine ⟨?_, hkeys⟩
      intro hk2
      obtain ⟨x, hx, hxk⟩ := List.mem_map.mp hk2
      exact hknot x hx hxk
    have hlenp := hperm.length_eq
    simp only [List.length_cons] at hlenp
    refine ⟨hInv2, ?_, ?_, ?_, ?_⟩
    · rw [hstate]
    · rw [hstate]
      show (lfuItems (assocPut 1 ((⟨k, v, 1, 0⟩ : LfuItem K V) ::
        (assocGet 1 d.freqLists).getD []) d.freqLists)).length ≤
        (lfuItems d.freqLists).length + 1
      omega
    · intro j hjk
      rw [hstate]
      cases hjf : lfuFindItem j d.freqLists with
      | some y =>
        have hym := lfuFindItem_mem hjf
        have hy2 : y ∈ lfuItems (assocPut 1 ((⟨k, v, 1, 0⟩ : LfuItem K V) ::
            (assocGet 1 d.freqLists).getD []) d.freqLists) :=
          hperm.mem_iff.mpr (List.mem_cons_of_mem _ hym.1)
        have hfy := lfuFindItem_of_mem hkeys2 hy2
        rw [hym.2] at hfy
        exact hfy
      | none =>
        rw [lfuFindItem_eq_none_iff]
        intro x hx hxj
        have hx2 := hperm.mem_iff.mp hx
        rcases List.mem_cons.mp hx2 with rfl | hx2
        · exact hjk hxj.symm
        · exact (lfuFindItem_eq_none_iff d.freqLists).mp hjf x hx2 hxj
    · refine ⟨⟨k, v, 1, 0⟩, ?_, rfl, rfl⟩
      rw [hstate]
      have hm : (⟨k, v, 1, 0⟩ : LfuItem K V) ∈ lfuItems (assocPut 1
          ((⟨k, v, 1, 0⟩ : LfuItem K V) :: (assocGet 1 d.freqLists).getD [])
          d.freqLists) :=
        hperm.mem_iff.mpr (List.mem_cons_self _ _)
      exact lfuFindItem_of_mem hkeys2 hm

/-- Folding the LFU set over a key-distinct pair list into a store with
enough free room: capacity and invariant kept, growth bounded by the list
length, untouched keys keep their lookup result, and every folded pair is
afterwards found with its value and no expiry. -/
theorem lfuFoldSet_spec (now : Int) (ps : List (K × V)) (d : LFUCache K V)
    (hInv : LFUInv d)
    (hnodup : (ps.map Prod.fst).Nodup)
    (hroom : lfuLen d.freqLists + ps.length ≤ d.size) :
    LFUInv (ps.foldl (fun d p => LFUCache.set now p.1 p.2 0 d) d) ∧
    (ps.foldl (fun d p => LFUCache.set now p.1 p.2 0 d) d).size = d.size ∧
    lfuLen (ps.foldl (fun d p => LFUCache.set now p.1 p.2 0 d) d).freqLists ≤
      lfuLen d.freqLists + ps.length ∧
    (∀ j, j ∉ ps.map Prod.fst →
      lfuFindItem j (ps.foldl (fun d p => LFUCache.set now p.1 p.2 0 d) d).freqLists =
        lfuFindItem j d.freqLists) ∧
    (∀ p ∈ ps, ∃ jt, lfuFindItem p.1
      (ps.foldl (fun d p => LFUCache.set now p.1 p.2 0 d) d).freqLists = some jt ∧
      jt.value = p.2 ∧ jt.expireAt = 0) := by
  induction ps generalizing d with
  | nil =>
    exact ⟨hInv, rfl, by simp, fun j _ => rfl, fun p hp => absurd hp (List.not_mem_nil p)⟩
  | cons q rest ih =>
    obtain ⟨k0, v0⟩ := q
    simp only [List.map_cons, List.nodup_cons] at hnodup
    simp only [List.length_cons] at hroom
    have hroom0 : lfuLen d.freqLists < d.size := by omega
    obtain ⟨hInv1, hs1, hl1, huntouched1, hfound1⟩ :=
      lfuSetRoom_step now k0 v0 ⟨hInv.1, hInv.2.1, hInv.2.2.1, hInv.2.2.2.1,
        hInv.2.2.2.2⟩ hroom0
    have hroom1 : lfuLen (LFUCache.set now k0 v0 0 d).freqLists + rest.length ≤
        (LFUCache.set now k0 v0 0 d).size := by
      rw [hs1]
      omega
    obtain ⟨ihInv, ihs, ihl, ihuntouched, ihmem⟩ :=
      ih (LFUCache.set now k0 v0 0 d) hInv1 hnodup.2 hroom1
    simp only [List.foldl_cons]
    refine ⟨ihInv, by rw [ihs, hs1], by simp only [List.length_cons]; omega, ?_, ?_⟩
    · intro j hj
      simp only [List.map_cons, List.mem_cons, not_or] at hj
      rw [ihuntouched j hj.2, huntouched1 j hj.1]
    · intro p hp
      rcases List.mem_cons.mp hp with rfl | hp
      · obtain ⟨jt, hjt, hv, he⟩ := hfound1
        refine ⟨jt, ?_, hv, he⟩
        rw [ihuntouched (k0, v0).1 hnodup.1]
        exact hjt
      · exact ihmem p hp

/-- deleteKey never brings a missing key back. -/
theorem lfuDeleteKey_none_mono (n : K) {j : K} {s : LFUCache K V}
    (hInv : LFUInv s) (hnone : lfuFindItem j s.freqLists = none) :
    lfuFindItem j (LFUCache.deleteKey n s).freqLists = none := by
  obtain ⟨ha, hkeys, hfst, hlen, hc⟩ := hInv
  cases hfind : lfuFindItem n s.freqLists with
  | none =>
    simp only [LFUCache.deleteKey, hfind]
    exact hnone
  | some it =>
    obtain ⟨hdsz, hdlen, hdsub, hdnotk, hdkeep, hda, hdfst⟩ :=
      lfuDeleteKey_spec n s it ha hkeys hfst hfind
    rw [lfuFindItem_eq_none_iff]
    intro x hx
    exact (lfuFindItem_eq_none_iff s.freqLists).mp hnone x (hdsub.subset hx)

/-- Folding the LFU delete over a key list: the invariant survives, keys
already missing stay missing and every folded key ends up missing. -/
theorem lfuFoldDelete_spec (ks : List K) (s : LFUCache K V) (hInv : LFUInv s) :
    LFUInv (ks.foldl (fun s n => LFUCache.deleteKey n s) s) ∧
    (∀ j, lfuFindItem j s.freqLists = none →
      lfuFindItem j (ks.foldl (fun s n => LFUCache.deleteKey n s) s).freqLists = none) ∧
    (∀ n ∈ ks,
      lfuFindItem n (ks.foldl (fun s n => LFUCache.deleteKey n s) s).freqLists = none) := by
  induction ks generalizing s with
  | nil => exact ⟨hInv, fun j hj => hj, fun n hn => absurd hn (List.not_mem_nil n)⟩
  | cons n0 rest ih =>
    have hInv1 : LFUInv (LFUCache.deleteKey n0 s) := lfuDeleteKey_preserves n0 hInv
    obtain ⟨ihInv, ihmono, ihnone⟩ := ih (LFUCache.deleteKey n0 s) hInv1
    simp only [List.foldl_cons]
    refine ⟨ihInv, ?_, ?_⟩
    · intro j hj
      exact ihmono j (lfuDeleteKey_none_mono n0 hInv hj)
    · intro n hn
      rcases List.mem_cons.mp hn with rfl | hn
      · refine ihmono n ?_
        obtain ⟨ha, hkeys, hfst, hlen, hc⟩ := hInv
        cases hfind : lfuFindItem n s.freqLists with
        | none =>
          simp only [LFUCache.deleteKey, hfind]
        | some it =>
          obtain ⟨hdsz, hdlen, hdsub, hdnotk, hdkeep, hda, hdfst⟩ :=
            lfuDeleteKey_spec n s it ha hkeys hfst hfind
          rw [lfuFindItem_eq_none_iff]
          exact hdnotk
      · exact ihnone n hn

/-- C2 (amended): for every same-policy source/destination pair — manual,
LRU and LFU, the three TransferTo implementations — whenever the
destination has room for every live source entry (so none of its own
entries is evicted), TransferTo moves exactly the live snapshot: every
live source binding reappears in the destination with its value (and no
expiry) and is deleted from the source; a key outside the live source key
set, in particular every key of an entry already expired at snapshot
time, is not inserted by TransferTo or CopyTo and keeps its previous
destination binding. -/
theorem claim_C2_amended (now : Int) (src dst : MCache K V) (lsrc ldst : LRUCache K V)
    (fsrc fdst : LFUCache K V)
    (hsn : (src.m.map Prod.fst).Nodup)
    (hroom : dst.m.length + MCache.Count now src ≤ dst.size)
    (hlsn : (lsrc.evictionList.map LruItem.key).Nodup)
    (hlroom : ldst.evictionList.length + LRUCache.Count now lsrc ≤ ldst.size)
    (hfi : LFUInv fsrc) (hgi : LFUInv fdst)
    (hfroom : lfuLen fdst.freqLists + LFUCache.Count now fsrc ≤ fdst.size) :
    (∀ k val, assocGet k src.m = some val → isLiveAt now val.expireAt = true →
      assocGet k ((MCache.TransferTo now src dst).2).m = some ⟨val.value, 0⟩ ∧
      assocGet k ((MCache.TransferTo now src dst).1).m = none) ∧
    (∀ j, j ∉ MCache.Keys now src →
      assocGet j ((MCache.TransferTo now src dst).2).m = assocGet j dst.m ∧
      assocGet j (MCache.CopyTo now src dst).m = assocGet j dst.m) ∧
    (∀ k it, lruFind k lsrc.evictionList = some it → isLiveAt now it.expireAt = true →
      lruFind k ((LRUCache.TransferTo now lsrc ldst).2).evictionList =
        some ⟨k, it.value, 0⟩ ∧
      lruFind k ((LRUCache.TransferTo now lsrc ldst).1).evictionList = none) ∧
    (∀ j, j ∉ LRUCache.Keys now lsrc →
      lruFind j ((LRUCache.TransferTo now lsrc ldst).2).evictionList =
        lruFind j ldst.evictionList ∧
      lruFind j (LRUCache.CopyTo now lsrc ldst).evictionList =
        lruFind j ldst.evictionList) ∧
    (∀ k it, lfuFindItem k fsrc.freqLists = some it → isLiveAt now it.expireAt = true →
      (∃ jt, lfuFindItem k ((LFUCache.TransferTo now fsrc fdst).2).freqLists = some jt ∧
        jt.value = it.value ∧ jt.expireAt = 0) ∧
      lfuFindItem k ((LFUCache.TransferTo now fsrc fdst).1).freqLists = none) ∧
    (∀ j, j ∉ LFUCache.Keys now fsrc →
      lfuFindItem j ((LFUCache.TransferTo now fsrc fdst).2).freqLists =
        lfuFindItem j fdst.freqLists ∧
      lfuFindItem j (LFUCache.CopyTo now fsrc fdst).freqLists =
        lfuFindItem j fdst.freqLists) := by
  have hkeys : ((src.m.filter (fun p => isLiveAt now p.2.expireAt)).map
      (fun p => (p.1, p.2.value))).map Prod.fst = MCache.Keys now src := by
    simp [MCache.Keys, List.map_map]
  have hnodt : (((src.m.filter (fun p => isLiveAt now p.2.expireAt)).map
      (fun p => (p.1, p.2.value))).map Prod.fst).Nodup := by
    rw [hkeys]
    exact hsn.sublist ((List.filter_sublist src.m).map Prod.fst)
  have hroomt : dst.m.length + ((src.m.filter (fun p => isLiveAt now p.2.expireAt)).map
      (fun p => (p.1, p.2.value))).length ≤ dst.size := by
    simpa [MCache.Count] using hroom
  have hfold := mcacheFoldSet_spec now
    ((src.m.filter (fun p => isLiveAt now p.2.expireAt)).map (fun p => (p.1, p.2.value)))
    dst hnodt hroomt
  have hlkeys : ((lsrc.evictionList.filter (fun x => isLiveAt now x.expireAt)).map
      (fun x => (x.key, x.value))).map Prod.fst = LRUCache.Keys now lsrc := by
    simp [LRUCache.Keys, List.map_map]
  have hlnodt : (((lsrc.evictionList.filter (fun x => isLiveAt now x.expireAt)).map
      (fun x => (x.key, x.value))).map Prod.fst).Nodup := by
    rw [hlkeys]
    exact hlsn.sublist ((List.filter_sublist lsrc.evictionList).map LruItem.key)
  have hlroomt : ldst.evictionList.length +
      ((lsrc.evictionList.filter (fun x => isLiveAt now x.expireAt)).map
        (fun x => (x.key, x.value))).length ≤ ldst.size := by
    simpa [LRUCache.Count] using hlroom
  have hlfold := lruFoldSet_spec now
    ((lsrc.evictionList.filter (fun x => isLiveAt now x.expireAt)).map
      (fun x => (x.key, x.value)))
    ldst hlnodt hlroomt
  have hfkeys : (((lfuItems fsrc.freqLists).filter (fun x => isLiveAt now x.expireAt)).map
      (fun x => (x.key, x.value))).map Prod.fst = LFUCache.Keys now fsrc := by
    simp [LFUCache.Keys, List.map_map]
  have hfnodt : ((((lfuItems fsrc.freqLists).filter (fun x => isLiveAt now x.expireAt)).map
      (fun x => (x.key, x.value))).map Prod.fst).Nodup := by
    rw [hfkeys]
    exact hfi.2.1.sublist ((List.filter_sublist (lfuItems fsrc.freqLists)).map LfuItem.key)
  have hfroomt : lfuLen fdst.freqLists +
      (((lfuItems fsrc.freqLists).filter (fun x => isLiveAt now x.expireAt)).map
        (fun x => (x.key, x.value))).length ≤ fdst.size := by
    simpa [LFUCache.Count] using hfroom
  have hffold := lfuFoldSet_spec now
    (((lfuItems fsrc.freqLists).filter (fun x => isLiveAt now x.expireAt)).map
      (fun x => (x.key, x.value)))
    fdst hgi hfnodt hfroomt
  have hfdel := lfuFoldDelete_spec
    ((((lfuItems fsrc.freqLists).filter (fun x => isLiveAt now x.expireAt)).map
      (fun x => (x.key, x.value))).map Prod.fst)
    fsrc hfi
  refine ⟨?_, ?_, ?_, ?_, ?_, ?_⟩
  · intro k val hget hlive
    have hmem : (k, val.value) ∈ (src.m.filter (fun p => isLiveAt now p.2.expireAt)).map
        (fun p => (p.1, p.2.value)) := by
      refine List.mem_map.mpr ⟨(k, val), List.mem_filter.mpr ⟨assocGet_mem hget, hlive⟩, rfl⟩
    constructor
    · simpa [MCache.TransferTo] using hfold.2.2.2 (k, val.value) hmem
    · simpa [MCache.TransferTo] using assocGet_filter_notLive hsn hget hlive
  · intro j hj
    have hjt : j ∉ ((src.m.filter (fun p => isLiveAt now p.2.expireAt)).map
        (fun p => (p.1, p.2.value))).map Prod.fst := by
      rw [hkeys]
      exact hj
    constructor
    · simpa [MCache.TransferTo] using hfold.2.2.1 j hjt
    · simpa [MCache.CopyTo] using hfold.2.2.1 j hjt
  · intro k it hget hlive
    have hmem : (k, it.value) ∈ (lsrc.evictionList.filter
        (fun x => isLiveAt now x.expireAt)).map (fun x => (x.key, x.value)) := by
      have hkm := lruFind_mem hget
      refine List.mem_map.mpr ⟨it, List.mem_filter.mpr ⟨hkm.1, hlive⟩, ?_⟩
      rw [hkm.2]
    constructor
    · simpa [LRUCache.TransferTo] using hlfold.2.2.2 (k, it.value) hmem
    · simpa [LRUCache.TransferTo] using lruFind_filter_notLive hlsn hget hlive
  · intro j hj
    have hjt : j ∉ ((lsrc.evictionList.filter (fun x => isLiveAt now x.expireAt)).map
        (fun x => (x.key, x.value))).map Prod.fst := by
      rw [hlkeys]
      exact hj
    constructor
    · simpa [LRUCache.TransferTo] using hlfold.2.2.1 j hjt
    · simpa [LRUCache.CopyTo] using hlfold.2.2.1 j hjt
  · intro k it hget hlive
    have hkm := lfuFindItem_mem hget
    have hmem : (k, it.value) ∈ ((lfuItems fsrc.freqLists).filter
        (fun x => isLiveAt now x.expireAt)).map (fun x => (x.key, x.value)) := by
      refine List.mem_map.mpr ⟨it, List.mem_filter.mpr ⟨hkm.1, hlive⟩, ?_⟩
      rw [hkm.2]
    constructor
    · obtain ⟨jt, hjt, hv, he⟩ := hffold.2.2.2.2 (k, it.value) hmem
      refine ⟨jt, ?_, hv, he⟩
      simpa [LFUCache.TransferTo] using hjt
    · have hkmem : k ∈ (((lfuItems fsrc.freqLists).filter
          (fun x => isLiveAt now x.expireAt)).map (fun x => (x.key, x.value))).map
            Prod.fst :=
        List.mem_map.mpr ⟨(k, it.value), hmem, rfl⟩
      simpa [LFUCache.TransferTo] using hfdel.2.2 k hkmem
  · intro j hj
    have hjt : j ∉ (((lfuItems fsrc.freqLists).filter
        (fun x => isLiveAt now x.expireAt)).map (fun x => (x.key, x.value))).map
          Prod.fst := by
      rw [hfkeys]
      exact hj
    constructor
    · simpa [LFUCache.TransferTo] using hffold.2.2.2.1 j hjt
    · simpa [LFUCache.CopyTo] using hffold.2.2.2.1 j hjt

/-- C2 (witness): the amended statement applied to concrete stores — each
source holds live key 1 and expired key 3, each destination (capacity 4,
one resident entry) has room, and the live binding lands in the
destination for all three policies while leaving the source without it. -/
theorem claim_C2_witness :
    (((⟨2, [(1, ⟨10, 0⟩), (3, ⟨30, 5⟩)], 0, false⟩ : MCache Nat Nat)).m.map
      Prod.fst).Nodup ∧
    (⟨4, [(2, ⟨20, 0⟩)], 0, false⟩ : MCache Nat Nat).m.length +
      MCache.Count 100 (⟨2, [(1, ⟨10, 0⟩), (3, ⟨30, 5⟩)], 0, false⟩ : MCache Nat Nat) ≤ 4 ∧
    lfuLen (⟨4, 1, [(1, [⟨2, 20, 1, 0⟩])]⟩ : LFUCache Nat Nat).freqLists +
      LFUCache.Count 100
        (⟨2, 1, [(1, [⟨1, 10, 1, 0⟩, ⟨3, 30, 1, 5⟩])]⟩ : LFUCache Nat Nat) ≤ 4 ∧
    assocGet 1 ((MCache.TransferTo 100
      (⟨2, [(1, ⟨10, 0⟩), (3, ⟨30, 5⟩)], 0, false⟩ : MCache Nat Nat)
      (⟨4, [(2, ⟨20, 0⟩)], 0, false⟩ : MCache Nat Nat)).2).m = some ⟨10, 0⟩ ∧
    lruFind 1 ((LRUCache.TransferTo 100
      (⟨2, [⟨1, 10, 0⟩, ⟨3, 30, 5⟩]⟩ : LRUCache Nat Nat)
      (⟨4, [⟨2, 20, 0⟩]⟩ : LRUCache Nat Nat)).2).evictionList = some ⟨1, 10, 0⟩ ∧
    (∃ jt, lfuFindItem 1 ((LFUCache.TransferTo 100
      (⟨2, 1, [(1, [⟨1, 10, 1, 0⟩, ⟨3, 30, 1, 5⟩])]⟩ : LFUCache Nat Nat)
      (⟨4, 1, [(1, [⟨2, 20, 1, 0⟩])]⟩ : LFUCache Nat Nat)).2).freqLists = some jt ∧
      jt.value = 10 ∧ jt.expireAt = 0) :=
  ⟨by decide, by decide, by decide,
    ((claim_C2_amended 100
      (⟨2, [(1, ⟨10, 0⟩), (3, ⟨30, 5⟩)], 0, false⟩ : MCache Nat Nat)
      (⟨4, [(2, ⟨20, 0⟩)], 0, false⟩ : MCache Nat Nat)
      (⟨2, [⟨1, 10, 0⟩, ⟨3, 30, 5⟩]⟩ : LRUCache Nat Nat)
      (⟨4, [⟨2, 20, 0⟩]⟩ : LRUCache Nat Nat)
      (⟨2, 1, [(1, [⟨1, 10, 1, 0⟩, ⟨3, 30, 1, 5⟩])]⟩ : LFUCache Nat Nat)
      (⟨4, 1, [(1, [⟨2, 20, 1, 0⟩])]⟩ : LFUCache Nat Nat)
      (by decide) (by decide) (by decide) (by decide) (by decide) (by decide)
      (by decide)).1 1 ⟨10, 0⟩ (by decide) (by decide)).1,
    ((claim_C2_amended 100
      (⟨2, [(1, ⟨10, 0⟩), (3, ⟨30, 5⟩)], 0, false⟩ : MCache Nat Nat)
      (⟨4, [(2, ⟨20, 0⟩)], 0, false⟩ : MCache Nat Nat)
      (⟨2, [⟨1, 10, 0⟩, ⟨3, 30, 5⟩]⟩ : LRUCache Nat Nat)
      (⟨4, [⟨2, 20, 0⟩]⟩ : LRUCache Nat Nat)
      (⟨2, 1, [(1, [⟨1, 10, 1, 0⟩, ⟨3, 30, 1, 5⟩])]⟩ : LFUCache Nat Nat)
      (⟨4, 1, [(1, [⟨2, 20, 1, 0⟩])]⟩ : LFUCache Nat Nat)
      (by decide) (by decide) (by decide) (by decide) (by decide) (by decide)
      (by decide)).2.2.1 1 ⟨1, 10, 0⟩ (by decide) (by decide)).1,
    ((claim_C2_amended 100
      (⟨2, [(1, ⟨10, 0⟩), (3, ⟨30, 5⟩)], 0, false⟩ : MCache Nat Nat)
      (⟨4, [(2, ⟨20, 0⟩)], 0, false⟩ : MCache Nat Nat)
      (⟨2, [⟨1, 10, 0⟩, ⟨3, 30, 5⟩]⟩ : LRUCache Nat Nat)
      (⟨4, [⟨2, 20, 0⟩]⟩ : LRUCache Nat Nat)
      (⟨2, 1, [(1, [⟨1, 10, 1, 0⟩, ⟨3, 30, 1, 5⟩])]⟩ : LFUCache Nat Nat)
      (⟨4, 1, [(1, [⟨2, 20, 1, 0⟩])]⟩ : LFUCache Nat Nat)
      (by decide) (by decide) (by decide) (by decide) (by decide) (by decide)
      (by decide)).2.2.2.2.1 1 ⟨1, 10, 1, 0⟩ rfl (by decide)).1⟩
